import Mathlib

/-!
# Verification of the zkfs-symbols wire codec and compression pipeline

Shallow embedding of the TypeScript sources under `src/` (varint codec,
CRC-32, envelope framing, file/dir node codecs, canonical length-limited
prefix code, trainable dictionary, blob compression pipeline), together
with proofs and refutations of the frozen specification claims.

Modelling conventions:
* A `Uint8Array` is a `List Nat` whose elements are intended to be `< 256`;
  writes that JavaScript coerces with ToUint8 take `% 256` explicitly.
* JavaScript numbers that can become `NaN` (timestamps read past the end of
  a buffer) are modelled as `Option Nat`, `none` standing for `NaN`.  All
  integer arithmetic reached by the theorems below stays far below `2^53`,
  where JavaScript numbers are exact, so `Nat` is a faithful model there.
* A thrown exception is modelled with `Except Err`; an exception swallowed
  by a `catch` block is reproduced by matching on the `Except` value.
-/

namespace ZkSym

/-- Error kinds thrown by the codec/compressor (spec §7). `typeError` models a
JavaScript `TypeError` from indexing a missing substitution string, and
`diverge` models non-termination of the substitution loop on an empty
substitution string; neither is reachable from a trained dictionary. -/
inductive Err : Type where
  | truncated | tooLarge | tooShort | badMagic | badVersion | badCrc
  | badTag | malformed | uncodedSymbol | badCode | lengthMismatch
  | badMethod | missingCollaborator | typeError | diverge | legacy
deriving Repr, DecidableEq

abbrev Bytes := List Nat

deriving instance DecidableEq for Except

/-! ## Variable-length integers (src/codec/varint.ts) -/

/-- Fuelled loop body of `encode_varint`; the fuel only serves Lean's
termination checker (each iteration divides `value` by 128, so `value + 1`
steps always suffice — see `evAux_congr` and `encode_varint_eq`). -/
def evAux (fuel value : Nat) : Bytes :=
  match fuel with
  | 0 => []
  | fuel + 1 =>
    if value < 128 then [value]
    else (value % 128 + 128) :: evAux fuel (value / 128)

/-- `encode_varint` from src/codec/varint.ts: unsigned LEB128, seven payload
bits per byte, continuation bit `0x80`.  The do-while loop emits `value % 128`
and divides by 128 until the value is zero. -/
def encode_varint (value : Nat) : Bytes := evAux (value + 1) value

theorem evAux_congr : ∀ f₁ f₂ v, v < f₁ → v < f₂ → evAux f₁ v = evAux f₂ v := by
  intro f₁
  induction f₁ with
  | zero => omega
  | succ f ih =>
    intro f₂ v hv hv₂
    match f₂, hv₂ with
    | f₂ + 1, _ =>
      simp only [evAux]
      by_cases h : v < 128
      · simp [h]
      · have hd : v / 128 < v := Nat.div_lt_self (by omega) (by omega)
        simp only [if_neg h]
        rw [ih f₂ (v / 128) (by omega) (by omega)]

/-- The defining recurrence of `encode_varint`, exactly as in the source. -/
theorem encode_varint_eq (v : Nat) :
    encode_varint v =
      if v < 128 then [v] else (v % 128 + 128) :: encode_varint (v / 128) := by
  by_cases h : v < 128
  · simp [encode_varint, evAux, h]
  · have hd : v / 128 < v := Nat.div_lt_self (by omega) (by omega)
    rw [if_neg h]
    show evAux (v + 1) v = _
    rw [show evAux (v + 1) v = (v % 128 + 128) :: evAux v (v / 128) from by
      simp [evAux, h]]
    exact congrArg _ (evAux_congr v (v / 128 + 1) (v / 128) (by omega) (by omega))

/-- Loop body of `decode_varint`: walks the bytes from the current position,
accumulating `(byte & 0x7f) * 2^shift`.  Fails with `truncated` when the
buffer is exhausted and with `tooLarge` when `shift` would exceed 49. -/
def dvAux : Bytes → Nat → Nat → Nat → Except Err (Nat × Nat)
  | [], _, _, _ => .error .truncated
  | b :: rest, shift, value, count =>
    let value := value + (b % 128) * 2 ^ shift
    if b % 256 < 128 then .ok (value, count + 1)
    else
      let shift := shift + 7
      if shift > 49 then .error .tooLarge
      else dvAux rest shift value (count + 1)

/-- `decode_varint` from src/codec/varint.ts: decodes at `offset`, returning
the value and the number of bytes read. -/
def decode_varint (buf : Bytes) (offset : Nat) : Except Err (Nat × Nat) :=
  dvAux (buf.drop offset) 0 0 0

/-! ## Timestamps (src/codec/constants.ts)

JavaScript numbers appearing as timestamps are modelled as `Option Nat`,
`none` standing for `NaN` (which arises from reading past the end of a
buffer and is absorbing).  `NaN & 0xff` is `0` and `Math.floor(NaN/256)` is
`NaN`, so encoding `NaN` produces six zero bytes. -/

/-- `encode_timestamp`: 6 bytes big-endian; the loop stores `val & 0xff` at
index `i` and divides by 256, for `i = 5` down to `0`. -/
def encode_timestamp : Option Nat → Bytes
  | some t => [t / 2 ^ 40 % 256, t / 2 ^ 32 % 256, t / 2 ^ 24 % 256,
               t / 2 ^ 16 % 256, t / 2 ^ 8 % 256, t % 256]
  | none => List.replicate 6 0

/-- `decode_timestamp`: `val = val * 256 + buf[offset + i]` for six bytes.
Any read past the end of the buffer yields `undefined` and poisons the value
with `NaN` (`none`); the reads are at consecutive offsets, so that happens
exactly when `offset + 6 > buf.length`. -/
def decode_timestamp (buf : Bytes) (offset : Nat) : Option Nat :=
  if offset + 6 ≤ buf.length then
    some (((buf.drop offset).take 6).foldl (fun v b => v * 256 + b) 0)
  else none

/-! ## CRC-32 (src/codec/crc32.ts)

All 32-bit JavaScript bitwise results are modelled by their unsigned bit
pattern, a `Nat < 2^32`; `x >>> 8` is `x / 256`, `x & 0xff` is `x % 256`. -/

/-- One step of the reflected CRC-32 table recurrence:
`crc & 1 ? (crc >>> 1) ^ 0xEDB88320 : crc >>> 1`. -/
def crcStep (c : Nat) : Nat :=
  if c % 2 = 1 then Nat.xor (c / 2) 0xEDB88320 else c / 2

/-- `TABLE[i]`: eight iterations of `crcStep` starting from `i`. -/
def crcTable (i : Nat) : Nat :=
  crcStep (crcStep (crcStep (crcStep (crcStep (crcStep (crcStep (crcStep i)))))))

/-- `crc32`: initial value `0xFFFFFFFF`, per byte
`crc = TABLE[(crc ^ b) & 0xff] ^ (crc >>> 8)`, final XOR `0xFFFFFFFF`. -/
def crc32 (data : Bytes) : Nat :=
  Nat.xor
    (data.foldl (fun crc b => Nat.xor (crcTable (Nat.xor crc b % 256)) (crc / 256))
      0xFFFFFFFF)
    0xFFFFFFFF

/-- `crc32_bytes`: the checksum as 4 big-endian bytes. -/
def crc32_bytes (data : Bytes) : Bytes :=
  let c := crc32 data
  [c / 2 ^ 24 % 256, c / 2 ^ 16 % 256, c / 2 ^ 8 % 256, c % 256]

/-- Big-endian read of 4 bytes (`DataView.getUint32`). -/
def getUint32BE (l : Bytes) : Nat :=
  l.getD 0 0 * 2 ^ 24 + l.getD 1 0 * 2 ^ 16 + l.getD 2 0 * 2 ^ 8 + l.getD 3 0

/-- `verify_crc32`: the trailing 4 bytes are the big-endian CRC-32 of all
preceding bytes. -/
def verify_crc32 (buf : Bytes) : Bool :=
  if buf.length < 4 then false
  else getUint32BE (buf.drop (buf.length - 4)) == crc32 (buf.take (buf.length - 4))

/-! ## Envelope framing (src/codec/constants.ts) -/

/-- `write_envelope`: `[0x5A 0x4B] ‖ version 0x01 ‖ tag ‖ payload ‖ CRC32(BE)`.
Storing the tag into a `Uint8Array` coerces it with ToUint8, hence `% 256`. -/
def write_envelope (tag : Nat) (payload : Bytes) : Bytes :=
  let body := [0x5A, 0x4B, 0x01, tag % 256] ++ payload
  body ++ crc32_bytes body

/-- `read_envelope`: checks length, magic, version and CRC in source order and
exposes the tag byte and the payload slice. -/
def read_envelope (buf : Bytes) : Except Err (Nat × Bytes) :=
  if buf.length < 8 then .error .tooShort
  else if buf.getD 0 0 ≠ 0x5A ∨ buf.getD 1 0 ≠ 0x4B then .error .badMagic
  else if buf.getD 2 0 ≠ 0x01 then .error .badVersion
  else if ¬ verify_crc32 buf then .error .badCrc
  else .ok (buf.getD 3 0, (buf.take (buf.length - 4)).drop 4)

/-- `has_magic`: `buf.length >= 2 && buf[0] === 0x5A && buf[1] === 0x4B`. -/
def has_magic (buf : Bytes) : Bool :=
  decide (2 ≤ buf.length) && buf.getD 0 0 == 0x5A && buf.getD 1 0 == 0x4B

/-! ## Fixed-width fields

`Uint8Array.set(src, off)` into a zero-initialised buffer followed by an
unconditional `offset += w` writes `src` and leaves `w - src.length` zero
bytes when `src.length ≤ w` (JavaScript throws a `RangeError` when
`src.length > w`; every theorem below fixes the field to its exact width, so
that case is never reached). -/
def fit (w : Nat) (b : Bytes) : Bytes :=
  b.take w ++ List.replicate (w - b.length) 0

/-- `Uint8Array.slice(start, stop)`, which clamps to the buffer. -/
def slice (buf : Bytes) (start stop : Nat) : Bytes :=
  (buf.take stop).drop start

/-! ## ChunkRef codec (src/codec/chunk-ref.ts) -/

structure ChunkRef where
  index : Nat
  hash : Bytes
  blob_address : Bytes
  nonce : Bytes
deriving Repr, DecidableEq

/-- `encode_chunk_ref`: `index(varint) ‖ hash(32) ‖ blob_address(32) ‖ nonce(24)`. -/
def encode_chunk_ref (ref : ChunkRef) : Bytes :=
  encode_varint ref.index ++ fit 32 ref.hash ++ fit 32 ref.blob_address ++ fit 24 ref.nonce

/-- `decode_chunk_ref`: reads the index varint and three fixed-width slices;
`bytesRead` advances by the varint length plus 88 regardless of how many
bytes the slices actually found. -/
def decode_chunk_ref (buf : Bytes) (offset : Nat) : Except Err (ChunkRef × Nat) := do
  let (index, il) ← decode_varint buf offset
  let o := offset + il
  let hash := slice buf o (o + 32)
  let blob_address := slice buf (o + 32) (o + 64)
  let nonce := slice buf (o + 64) (o + 88)
  .ok ({ index, hash, blob_address, nonce }, il + 88)

/-! ## FileNode codec (src/codec/file-node.ts) -/

structure FileNode where
  content_hash : Bytes
  size : Nat
  created : Option Nat
  modified : Option Nat
  chunks : List ChunkRef
deriving Repr, DecidableEq

/-- The payload built by `encode_file_node`:
`content_hash(32) ‖ created(6) ‖ modified(6) ‖ size(varint) ‖
chunk_count(varint) ‖ chunk_refs`. -/
def file_node_payload (node : FileNode) : Bytes :=
  fit 32 node.content_hash ++ encode_timestamp node.created ++
    encode_timestamp node.modified ++ encode_varint node.size ++
    encode_varint node.chunks.length ++
    (node.chunks.map encode_chunk_ref).flatten

def encode_file_node (node : FileNode) : Bytes :=
  write_envelope 0x01 (file_node_payload node)

/-- The chunk-reading loop of `decode_file_node_payload`: `chunk_count`
iterations of `decode_chunk_ref`, each advancing the offset by `bytes_read`. -/
def decodeChunks (buf : Bytes) : Nat → Nat → Except Err (List ChunkRef)
  | _, 0 => .ok []
  | offset, n + 1 => do
    let (c, k) ← decode_chunk_ref buf offset
    let cs ← decodeChunks buf (offset + k) n
    .ok (c :: cs)

/-- `decode_file_node_payload`: fixed header fields then the chunk loop. -/
def decode_file_node_payload (payload : Bytes) : Except Err FileNode := do
  let content_hash := slice payload 0 32
  let created := decode_timestamp payload 32
  let modified := decode_timestamp payload 38
  let (size, sl) ← decode_varint payload 44
  let (chunk_count, cl) ← decode_varint payload (44 + sl)
  let chunks ← decodeChunks payload (44 + sl + cl) chunk_count
  .ok { content_hash, size, created, modified, chunks }

def decode_file_node (buf : Bytes) : Except Err FileNode := do
  let (tag, payload) ← read_envelope buf
  if tag = 0x01 then decode_file_node_payload payload else .error .badTag

/-! ## DirNode codec (src/codec/dir-node.ts) -/

structure DirNode where
  smt_root : Bytes
  group_id : Option Bytes
  created : Option Nat
  modified : Option Nat
deriving Repr, DecidableEq

/-- The payload built by `encode_dir_node`:
`smt_root(32) ‖ has_group(1) ‖ [group_id(32)] ‖ created(6) ‖ modified(6)`. -/
def dir_node_payload (node : DirNode) : Bytes :=
  fit 32 node.smt_root ++ [if node.group_id.isSome then 0x01 else 0x00] ++
    (match node.group_id with
      | some g => fit 32 g
      | none => []) ++
    encode_timestamp node.created ++ encode_timestamp node.modified

def encode_dir_node (node : DirNode) : Bytes :=
  write_envelope 0x02 (dir_node_payload node)

/-- `decode_dir_node_payload`: `has_group` is literally
`payload[32] === 0x01`; no other byte value is rejected.  The function never
throws. -/
def decode_dir_node_payload (payload : Bytes) : DirNode :=
  let has_group := payload.getD 32 0 == 0x01
  let group_id := if has_group then some (slice payload 33 65) else none
  let o := if has_group then 65 else 33
  { smt_root := slice payload 0 32, group_id,
    created := decode_timestamp payload o,
    modified := decode_timestamp payload (o + 6) }

def decode_dir_node (buf : Bytes) : Except Err DirNode := do
  let (tag, payload) ← read_envelope buf
  if tag = 0x02 then .ok (decode_dir_node_payload payload) else .error .badTag

/-! ## Node dispatcher (src/codec/node.ts) -/

inductive Node : Type where
  | file (f : FileNode)
  | dir (d : DirNode)
deriving Repr, DecidableEq

def encode_node : Node → Bytes
  | .file f => encode_file_node f
  | .dir d => encode_dir_node d

/-- `decode_node`: binary envelope when the magic matches, else the legacy
textual fallback.  The legacy branch calls `JSON.parse` on the buffer, which
is outside this byte-level model; it is represented by the distinguished
error `.legacy` and is unreachable for any envelope produced by
`encode_node`, whose output always starts with the magic. -/
def decode_node (buf : Bytes) : Except Err Node :=
  if has_magic buf then do
    let (tag, payload) ← read_envelope buf
    match tag with
    | 0x01 => (decode_file_node_payload payload).map .file
    | 0x02 => .ok (.dir (decode_dir_node_payload payload))
    | _ => .error .badTag
  else .error .legacy

/-! ## Canonical length-limited prefix code (src/compress/symbol-tree.ts) -/

/-- Stable insertion into a sorted list: `x` goes after every `y` with
`le y x`.  With `le a b := cmp a b ≤ 0` this reproduces a stable JavaScript
`Array.prototype.sort` (V8's sort is stable), and with `le := (·.1 ≤ ·.1)` it
is exactly the `splice` insertion used by the Huffman queue:
`while (idx < q.length && q[idx].freq <= merged.freq) idx++`. -/
def insertStable (le : α → α → Bool) (x : α) : List α → List α
  | [] => [x]
  | y :: ys => if le y x then y :: insertStable le x ys else x :: y :: ys

/-- Stable sort by repeated `insertStable` (stable, as the JS sort). -/
def sortStable (le : α → α → Bool) (l : List α) : List α :=
  l.foldl (fun acc x => insertStable le x acc) []

/-- Huffman work-queue tree (the `QNode`/`TreeNode` pair of `build_tree`). -/
inductive HTree : Type where
  | leaf (symbol : Nat)
  | node (l r : HTree)
deriving Repr, DecidableEq

/-- Queue insertion of a merged parent (`splice` at the first index whose
frequency exceeds the parent's). -/
def insertNode (m : Nat × HTree) : List (Nat × HTree) → List (Nat × HTree)
  | [] => [m]
  | x :: xs => if x.1 ≤ m.1 then x :: insertNode m xs else m :: x :: xs

/-- The `while (q.length > 1)` merge loop.  The fuel argument only serves
structural recursion: every iteration shortens the queue by one, so
`q.length` iterations always suffice and the `0` case is unreachable. -/
def huffLoopAux : Nat → List (Nat × HTree) → List (Nat × HTree)
  | 0, q => q
  | fuel + 1, q =>
    match q with
    | l :: r :: rest => huffLoopAux fuel (insertNode (l.1 + r.1, .node l.2 r.2) rest)
    | q => q

def huffLoop (q : List (Nat × HTree)) : List (Nat × HTree) :=
  huffLoopAux q.length q

/-- The depth-assignment walk: `lengths[symbol] = Math.min(depth, 15)` at each
leaf, children visited left then right at `depth + 1`. -/
def walkDepths : HTree → Nat → List (Nat × Nat)
  | .leaf s, depth => [(s, min depth 15)]
  | .node l r, depth => walkDepths l (depth + 1) ++ walkDepths r (depth + 1)

/-- The Kraft sum `Σ_{len>0} 2^-len` of `clamp_lengths`, scaled by `2^15`.
The JavaScript float arithmetic (`1 / (1 << len)` with `len ≤ 15`, at most
256 terms) is exact on dyadics of exponent ≥ -15, so the scaled integer is a
faithful model. -/
def kraftScaled (l : List Nat) : Nat :=
  l.foldl (fun s x => if x > 0 then s + 2 ^ (15 - x) else s) 0

/-- The compensation pass of `clamp_lengths`: one left-to-right sweep that,
while the (scaled) Kraft sum still exceeds one, increments each length that
is in `1..14`, updating the sum incrementally exactly as the source does. -/
def adjustGo : List Nat → Nat → List Nat × Nat
  | [], k => ([], k)
  | x :: xs, k =>
    if k > 2 ^ 15 ∧ 0 < x ∧ x < 15 then
      let k := k - 2 ^ (15 - x) + 2 ^ (15 - (x + 1))
      let (xs', k') := adjustGo xs k
      ((x + 1) :: xs', k')
    else
      let (xs', k') := adjustGo xs k
      (x :: xs', k')

/-- `SymbolTree.clamp_lengths(lengths, 15)`.  The `while (overflow)` loop runs
at most twice: if the first sweep clamps nothing it breaks immediately
(before ever computing the Kraft sum); otherwise it clamps, repairs the Kraft
sum once, and the second sweep finds nothing above 15 and breaks. -/
def clamp_lengths (l : List Nat) : List Nat :=
  if l.all (· ≤ 15) then l
  else
    let l1 := l.map (fun x => min x 15)
    let k := kraftScaled l1
    if k > 2 ^ 15 then (adjustGo l1 k).1 else l1

structure SymbolTree where
  lengths : List Nat
deriving Repr, DecidableEq

/-- `SymbolTree.from_frequencies`.  `build_tree` ignores its argument and
rebuilds the queue from `active`, so only that second construction is
modelled; the discarded first merge pass over `nodes` has no effect on the
result.  The 256-entry guard of the source is satisfied at every call site
modelled here. -/
def SymbolTree.from_frequencies (freq : List Nat) : SymbolTree :=
  let active := (List.range 256).filterMap fun i =>
    if freq.getD i 0 > 0 then some (i, freq.getD i 0) else none
  match active with
  | [] => ⟨List.replicate 256 0⟩
  | [a] => ⟨(List.replicate 256 0).set a.1 1⟩
  | _ =>
    let q := sortStable (fun a b => a.1 ≤ b.1)
      (active.map fun a => (a.2, HTree.leaf a.1))
    let final := huffLoop q
    let lengths := match final with
      | t :: _ => (walkDepths t.2 0).foldl (fun l p => l.set p.1 p.2)
          (List.replicate 256 0)
      | [] => List.replicate 256 0
    ⟨clamp_lengths lengths⟩

/-- Canonical code assignment (`build_encode_table`): active symbols sorted by
`(length, symbol)`; code `(prev + 1) << (len - prev_len)` at each length
increase, else increment.  Returns the 256-entry `(code, length)` table. -/
def canonicalCodes (lengths : List Nat) : List (Nat × Nat) :=
  let symbols := (List.range 256).filterMap fun i =>
    if lengths.getD i 0 > 0 then some (i, lengths.getD i 0) else none
  let sorted := sortStable
    (fun a b => a.2 < b.2 ∨ (a.2 = b.2 ∧ a.1 ≤ b.1) : Nat × Nat → Nat × Nat → Bool)
    symbols
  let step := fun (st : List (Nat × Nat) × Nat × Nat) (s : Nat × Nat) =>
    let (table, code, prev_len) := st
    let code := if prev_len > 0 then (code + 1) * 2 ^ (s.2 - prev_len) else code
    (table.set s.1 (code, s.2), code, s.2)
  (sorted.foldl step (List.replicate 256 (0, 0), 0, 0)).1

/-- MSB-first bits of a code: the loop `for (b = length-1; b >= 0; b--)`
tests `(code >> b) & 1`. -/
def symBits (code len : Nat) : List Bool :=
  (List.range len).map fun j => code / 2 ^ (len - 1 - j) % 2 = 1

/-- One output byte from at most 8 MSB-first bits. -/
def byteOfBits (bs : List Bool) : Nat :=
  bs.foldl (fun v b => v * 2 + if b then 1 else 0) 0

/-- Pack a bit list MSB-first into bytes, zero-padding the final byte; fuel
is structural only (`bits.length` always suffices). -/
def b2bAux : Nat → List Bool → Bytes
  | _, [] => []
  | 0, _ :: _ => []
  | fuel + 1, bits =>
    byteOfBits (bits.take 8 ++ List.replicate (8 - bits.length) false) ::
      b2bAux fuel (bits.drop 8)

def bitsToBytes (bits : List Bool) : Bytes :=
  b2bAux bits.length bits

/-- `SymbolTree.encode`: per input byte, the canonical code MSB-first into a
bit stream; `UncodedSymbol` on a zero-length code (the source throws at the
first such byte during its counting pass). -/
def SymbolTree.encode (t : SymbolTree) (data : Bytes) : Except Err (Bytes × Nat) :=
  let table := canonicalCodes t.lengths
  if data.any fun b => (table.getD b (0, 0)).2 = 0 then .error .uncodedSymbol
  else
    let allBits := (data.map fun b =>
      let e := table.getD b (0, 0)
      symBits e.1 e.2).flatten
    .ok (bitsToBytes allBits, allBits.length)

/-- The decode map of `build_decode_table`: key `(length << 16) | code`
(with JavaScript's bitwise OR, faithful even when a Kraft-violating table
overflows `code` past 16 bits), value `(symbol, length)`.  `Map.set`
overwrites, so later symbols shadow earlier ones; prepending and taking the
first `lookup` hit models that. -/
def decodeMap (lengths : List Nat) : List (Nat × Nat × Nat) :=
  let table := canonicalCodes lengths
  (List.range 256).foldl
    (fun m i =>
      let e := table.getD i (0, 0)
      if e.2 > 0 then (Nat.lor (e.2 * 2 ^ 16) e.1, i, e.2) :: m else m)
    []

/-- Bit `k` of the packed stream: `(bits[k >> 3] >> (7 - (k & 7))) & 1`. -/
def bitAt (bits : Bytes) (k : Nat) : Nat :=
  bits.getD (k / 8) 0 / 2 ^ (7 - k % 8) % 2

/-- The inner scan of `SymbolTree.decode`: grow the code one bit at a time
for `len = 1, 2, ...` while `len ≤ max_len` and `bit_pos + len ≤ bit_count`,
returning the first decode-map hit.  Fuel is structural only (`max_len + 1`
always suffices). -/
def scanGo (dmap : List (Nat × Nat × Nat)) (bits : Bytes)
    (bit_count max_len bit_pos : Nat) : Nat → Nat → Nat → Option (Nat × Nat)
  | 0, _, _ => none
  | fuel + 1, len, code =>
    if len ≤ max_len ∧ bit_pos + len ≤ bit_count then
      let code := code * 2 + bitAt bits (bit_pos + len - 1)
      match (dmap.lookup (Nat.lor (len * 2 ^ 16) code)) with
      | some e => some e
      | none => scanGo dmap bits bit_count max_len bit_pos fuel (len + 1) code
    else none

/-- Outer loop of `SymbolTree.decode`, with the remaining expected output
count as structural fuel (each iteration emits one byte or throws).  When the
inner scan finds nothing: if it examined at least one bit the source throws
`BadCode`; if it could not run at all (`max_len = 0` with bits remaining)
the source spins forever, modelled by `.diverge`. -/
def sdLoop (dmap : List (Nat × Nat × Nat)) (bits : Bytes)
    (bit_count max_len : Nat) : Nat → Nat → Except Err Bytes
  | _, 0 => .ok []
  | bit_pos, remaining + 1 =>
    if bit_pos < bit_count then
      match scanGo dmap bits bit_count max_len bit_pos (max_len + 1) 1 0 with
      | some (sym, len) => do
          let rest ← sdLoop dmap bits bit_count max_len (bit_pos + len) remaining
          .ok (sym :: rest)
      | none => if max_len ≥ 1 then .error .badCode else .error .diverge
    else .error .lengthMismatch

/-- `SymbolTree.decode bits bit_count expected_length`. -/
def SymbolTree.decode (t : SymbolTree) (bits : Bytes) (bit_count expected : Nat) :
    Except Err Bytes :=
  let dmap := decodeMap t.lengths
  let max_len := t.lengths.foldl max 0
  sdLoop dmap bits bit_count max_len 0 expected

/-! ## Dictionary (src/compress/dictionary.ts) -/

/-- A trained codebook: up to 255 substitution strings and a Huffman tree.
(The constructor's `> 255` guard is satisfied at every call site modelled
here: training takes at most 255 candidates.) -/
structure Dictionary where
  strings : List Bytes
  tree : SymbolTree

/-- First substitution string matching at the current position, with its
0-based index: the source scans `strings` in order and compares
byte-by-byte after checking `i + str.length <= data.length` — exactly a
prefix test against the remaining input. -/
def firstMatch (rem : Bytes) : List Bytes → Nat → Option (Nat × Bytes)
  | [], _ => none
  | str :: ss, idx =>
    if str.isPrefixOf rem then some (idx, str) else firstMatch rem ss (idx + 1)

/-- The substitution loop.  A match emits `0x00 (idx+1)` and advances past
the match; a literal `0x00` is escaped as `0x00 0x00`; other bytes pass
through.  A matching empty string would loop forever in the source
(`i += 0`), modelled by `.diverge`; with that case split off every step
consumes at least one input byte, so fuel `data.length + 1` never runs out
(the `0` case is unreachable). -/
def substAux (strings : List Bytes) : Nat → Bytes → Except Err Bytes
  | _, [] => .ok []
  | 0, _ :: _ => .error .diverge
  | fuel + 1, b :: rest =>
    match firstMatch (b :: rest) strings 0 with
    | some (idx, str) =>
      if str = [] then .error .diverge
      else do
        let tail ← substAux strings fuel ((b :: rest).drop str.length)
        .ok (0 :: (idx + 1) :: tail)
    | none =>
      if b = 0 then do
        let tail ← substAux strings fuel rest
        .ok (0 :: 0 :: tail)
      else do
        let tail ← substAux strings fuel rest
        .ok (b :: tail)

/-- `Dictionary.apply_substitution`. -/
def apply_substitution (data : Bytes) (strings : List Bytes) : Except Err Bytes :=
  substAux strings (data.length + 1) data

/-- `Dictionary.reverse_substitution`: `0x00 0x00` is a literal zero,
`0x00 k` expands `strings[k-1]` (a `TypeError` in the source when the index
is out of range), a trailing lone `0x00` falls through to the verbatim
branch. -/
def reverse_substitution : Bytes → List Bytes → Except Err Bytes
  | [], _ => .ok []
  | 0 :: idx :: rest, strings =>
    if idx = 0 then do
      let t ← reverse_substitution rest strings
      .ok (0 :: t)
    else
      match strings.get? (idx - 1) with
      | some str => do
          let t ← reverse_substitution rest strings
          .ok (str ++ t)
      | none => .error .typeError
  | b :: rest, strings => do
    let t ← reverse_substitution rest strings
    .ok (b :: t)

/-- `Dictionary.compress`:
`substituted_len(varint) ‖ bit_count(varint) ‖ bits`. -/
def Dictionary.compress (d : Dictionary) (data : Bytes) : Except Err Bytes := do
  let substituted ← apply_substitution data d.strings
  let (bits, bit_count) ← d.tree.encode substituted
  .ok (encode_varint substituted.length ++ encode_varint bit_count ++ bits)

/-- `Dictionary.decompress` (the original-size argument is ignored). -/
def Dictionary.decompress (d : Dictionary) (compressed : Bytes)
    (_original_size : Nat) : Except Err Bytes := do
  let (sub_len, sl) ← decode_varint compressed 0
  let (bit_count, bl) ← decode_varint compressed sl
  let bits := compressed.drop (sl + bl)
  let substituted ← d.tree.decode bits bit_count sub_len
  reverse_substitution substituted d.strings

/-- n-gram occurrence bump for the training `Map`, keyed by the window bytes
(the source key `Array.from(slice).join(",")` is injective on byte lists);
insertion order of first occurrences is preserved, as for a JS `Map`. -/
def bumpGram : List (Bytes × Nat) → Bytes → List (Bytes × Nat)
  | [], g => [(g, 1)]
  | (h, c) :: t, g => if h = g then (h, c + 1) :: t else (h, c) :: bumpGram t g

/-- All windows of a given size (`i <= sample.length - gram_size`). -/
def gramsOf (sample : Bytes) (size : Nat) : List Bytes :=
  if sample.length < size then []
  else (List.range (sample.length - size + 1)).map fun i => slice sample i (i + size)

/-- `Dictionary.train`.  The `Except` is only plumbing for
`apply_substitution`; retained strings are whole windows (≥ 4 bytes), so the
`.diverge` path is unreachable from here. -/
def Dictionary.train (samples : List Bytes) : Except Err Dictionary :=
  if samples.length = 0 then
    .ok ⟨[], SymbolTree.from_frequencies (List.replicate 256 0)⟩
  else
    let ngram_counts := samples.foldl
      (fun m sample => [4, 8, 16, 32].foldl
        (fun m gs => (gramsOf sample gs).foldl bumpGram m) m)
      []
    let candidates := (sortStable
      (fun a b => b.2 * b.1.length ≤ a.2 * a.1.length)
      (ngram_counts.filter fun c => c.2 ≥ 2)).take 255
    let strings := candidates.map (·.1)
    do
      let parts ← samples.mapM (apply_substitution · strings)
      let frequencies := parts.foldl
        (fun f part => part.foldl (fun f b => f.set b (f.getD b 0 + 1)) f)
        (List.replicate 256 0)
      .ok ⟨strings, SymbolTree.from_frequencies frequencies⟩

/-! ## Content detection (`content-detector.ts`, in src/unnamed/part_005)

The `ContentType` enum: `UNKNOWN = 0x00` is never produced. -/

def CT_UNKNOWN : Nat := 0x00
def CT_TEXT : Nat := 0x01
def CT_JSON : Nat := 0x02
def CT_BINARY : Nat := 0x03

/-- Printable ASCII (0x20–0x7E), tab, LF, CR, or ≥ 0x80. -/
def printableByte (x : Nat) : Bool :=
  (0x20 ≤ x && x ≤ 0x7E) || x == 0x09 || x == 0x0A || x == 0x0D || 0x80 ≤ x

/-- `detect_content_type`.  An empty buffer is binary; a `{`/`[` first byte
with no `0x00` in the first (up to) 64 bytes is JSON — an invalid JSON
prefix falls through to the text check, exactly as in the source; the text
check samples up to 512 bytes, bails out to binary on any `0x00` (the
source breaks out of the counting loop, so a null forces `has_null`
regardless of the ratio), and declares UTF-8 text when
`printable / sample_len > 0.9`.  That float comparison is modelled by the
exact rational `9 * sample_len < 10 * printable`: with `sample_len ≤ 512`
the two sides of the strict inequality differ by at least `1/(10·512)`,
far above the correctly-rounded division's error, and a ratio of exactly
`9/10` rounds to the double of the literal `0.9` itself, so the float test
is false there too. -/
def detect_content_type (b : Bytes) : Nat :=
  if b.length = 0 then CT_BINARY
  else if (b.getD 0 0 = 0x7B ∨ b.getD 0 0 = 0x5B) ∧ (b.take 64).all (· ≠ 0) then CT_JSON
  else
    let w := b.take 512
    if w.all (· ≠ 0) ∧ 9 * w.length < 10 * (w.countP printableByte) then CT_TEXT
    else CT_BINARY

/-! ## Blob compression pipeline (src/compress/pipeline.ts) -/

/-- `PipelineOptions`: the two fallback collaborators are opaque functions
that may throw (`Except`). -/
structure PipelineOptions where
  dictionary : Option Dictionary := none
  fallback_compress : Option (Bytes → Except Err Bytes) := none
  fallback_decompress : Option (Bytes → Nat → Except Err Bytes) := none

/-- The dictionary trial of `compress_blob`: attempted only when a dictionary
is present and the content type is text or JSON; a thrown error is swallowed
by the `try/catch` (but nontermination, `.diverge`, is not catchable);
adopted only when strictly smaller.  Returns `(best_data, best_method)`. -/
def dictTrial (dict : Option Dictionary) (content_type : Nat) (plaintext : Bytes) :
    Except Err (Bytes × Nat) :=
  match dict with
  | some d =>
    if content_type = CT_TEXT ∨ content_type = CT_JSON then
      match d.compress plaintext with
      | .ok out => if out.length < plaintext.length then .ok (out, 2) else .ok (plaintext, 0)
      | .error .diverge => .error .diverge
      | .error _ => .ok (plaintext, 0)
    else .ok (plaintext, 0)
  | none => .ok (plaintext, 0)

/-- The fallback-compressor trial block of `compress_blob`.  Both attempts
live in a single `try`: a throw aborts the rest of the block but keeps any
adoption already made.  When the dictionary trial won, deflate is first tried
on top of the dictionary output (method 3), then raw deflate on the
plaintext (method 1); each adopted only when strictly smaller than the
current best. -/
def fbTrial (f : Bytes → Except Err Bytes) (dictPresent : Bool) (plaintext : Bytes)
    (best : Bytes × Nat) : Bytes × Nat :=
  if best.2 = 2 ∧ dictPresent then
    match f best.1 with
    | .error _ => best
    | .ok o1 =>
      let best1 := if o1.length < best.1.length then (o1, 3) else best
      match f plaintext with
      | .error _ => best1
      | .ok o2 => if o2.length < best1.1.length then (o2, 1) else best1
  else
    match f plaintext with
    | .error _ => best
    | .ok o2 => if o2.length < best.1.length then (o2, 1) else best

/-- The negotiation of `compress_blob`: dictionary trial, fallback trials,
then the final revert to `(plaintext, none)` whenever the best candidate is
not strictly smaller than the plaintext. -/
def negotiate (plaintext : Bytes) (opts : PipelineOptions) (content_type : Nat) :
    Except Err (Bytes × Nat) := do
  let best ← dictTrial opts.dictionary content_type plaintext
  let best := match opts.fallback_compress with
    | some f => fbTrial f opts.dictionary.isSome plaintext best
    | none => best
  if best.1.length ≥ plaintext.length then .ok (plaintext, 0) else .ok best

/-- `compress_blob`: negotiation, then
`method(1) ‖ content_type(1) ‖ original_size(varint) ‖ compressed_len(varint)
‖ data` inside a tag-`0x10` envelope. -/
def compress_blob (plaintext : Bytes) (opts : PipelineOptions) : Except Err Bytes := do
  let content_type := detect_content_type plaintext
  let (best_data, best_method) ← negotiate plaintext opts content_type
  let payload := best_method :: content_type ::
    (encode_varint plaintext.length ++ encode_varint best_data.length ++ best_data)
  .ok (write_envelope 0x10 payload)

/-- `decompress_blob`: envelope and tag check, header fields, then dispatch
on the method byte.  No comparison of the output length against
`original_size` appears anywhere. -/
def decompress_blob (compressed : Bytes) (opts : PipelineOptions) : Except Err Bytes := do
  let (tag, payload) ← read_envelope compressed
  if tag ≠ 0x10 then .error .badTag
  else
    let method := payload.getD 0 0
    let (original_size, os) ← decode_varint payload 2
    let (compressed_len, cs) ← decode_varint payload (2 + os)
    let data := slice payload (2 + os + cs) (2 + os + cs + compressed_len)
    match method with
    | 0 => .ok data
    | 1 =>
      match opts.fallback_decompress with
      | none => .error .missingCollaborator
      | some g => g data original_size
    | 2 =>
      match opts.dictionary with
      | none => .error .missingCollaborator
      | some d => d.decompress data original_size
    | 3 =>
      match opts.fallback_decompress with
      | none => .error .missingCollaborator
      | some g =>
        match opts.dictionary with
        | none => .error .missingCollaborator
        | some d => do
          let inflated ← g data 0
          d.decompress inflated original_size
    | _ => .error .badMethod

/-! ## Well-formedness predicates and concrete inputs used by the theorems -/

/-- Field widths and varint-range bound for a chunk reference (`2^56` is the
largest range the 8-byte LEB128 decoder accepts; every real index is far
smaller). -/
def ChunkRefWF (c : ChunkRef) : Prop :=
  c.hash.length = 32 ∧ c.blob_address.length = 32 ∧ c.nonce.length = 24 ∧
    c.index < 2 ^ 56

def FileNodeWF (f : FileNode) : Prop :=
  f.content_hash.length = 32 ∧ f.size < 2 ^ 56 ∧ f.chunks.length < 2 ^ 56 ∧
    f.created ≠ none ∧ f.modified ≠ none ∧ ∀ c ∈ f.chunks, ChunkRefWF c

def DirNodeWF (d : DirNode) : Prop :=
  d.smt_root.length = 32 ∧ (∀ g, d.group_id = some g → g.length = 32) ∧
    d.created ≠ none ∧ d.modified ≠ none

def NodeWF : Node → Prop
  | .file f => FileNodeWF f
  | .dir d => DirNodeWF d

/-- Timestamps reduced modulo `2^48` (what a decode of an encode yields). -/
def tsMod48 : Node → Node
  | .file f => .file { f with created := f.created.map (· % 2 ^ 48),
                              modified := f.modified.map (· % 2 ^ 48) }
  | .dir d => .dir { d with created := d.created.map (· % 2 ^ 48),
                            modified := d.modified.map (· % 2 ^ 48) }

/-- All timestamps of the node lie below `2^48`. -/
def tsLt48 : Node → Prop
  | .file f => (∀ t, f.created = some t → t < 2 ^ 48) ∧
      (∀ t, f.modified = some t → t < 2 ^ 48)
  | .dir d => (∀ t, d.created = some t → t < 2 ^ 48) ∧
      (∀ t, d.modified = some t → t < 2 ^ 48)

/-- The first 17 Fibonacci numbers — the classic weight profile that drives a
Huffman tree to depth 16. -/
def fibs : List Nat :=
  [1, 1, 2, 3, 5, 8, 13, 21, 34, 55, 89, 144, 233, 377, 610, 987, 1597]

/-- A 256-entry frequency table carrying the Fibonacci weights on the byte
values `0x61..0x71` and zero elsewhere. -/
def fibFreq : List Nat :=
  (List.range 256).map fun i => if 0x61 ≤ i ∧ i ≤ 0x71 then fibs.getD (i - 0x61) 0 else 0

/-- `count` occurrences of the byte `b`, grouped into samples of at most 3
bytes.  Every sample is shorter than the smallest n-gram window (4), so
training over such samples retains no substitution strings and builds the
tree over exactly the byte frequencies. -/
def symGroup (b n : Nat) : List Bytes :=
  List.replicate (n / 3) [b, b, b] ++
    (if n % 3 = 0 then [] else [List.replicate (n % 3) b])

/-- The byte/frequency pairs of `fibFreq`, as an explicit list. -/
def groupSpec : List (Nat × Nat) :=
  [(0x61, 1), (0x62, 1), (0x63, 2), (0x64, 3), (0x65, 5), (0x66, 8), (0x67, 13),
   (0x68, 21), (0x69, 34), (0x6A, 55), (0x6B, 89), (0x6C, 144), (0x6D, 233),
   (0x6E, 377), (0x6F, 610), (0x70, 987), (0x71, 1597)]

/-- Training samples realising `fibFreq` as byte frequencies. -/
def fibSamples3 : List Bytes :=
  (groupSpec.map fun p => symGroup p.1 p.2).flatten

/-- The n-gram count table built by the first phase of `Dictionary.train`. -/
def trainGrams (samples : List Bytes) : List (Bytes × Nat) :=
  samples.foldl
    (fun m sample => [4, 8, 16, 32].foldl
      (fun m gs => (gramsOf sample gs).foldl bumpGram m) m)
    []

/-- The substitution strings retained by `Dictionary.train`. -/
def trainStrings (samples : List Bytes) : List Bytes :=
  ((sortStable (fun a b => b.2 * b.1.length ≤ a.2 * a.1.length)
    ((trainGrams samples).filter fun c => c.2 ≥ 2)).take 255).map (·.1)

/-- The byte-frequency count of `Dictionary.train` over the substituted
parts. -/
def countBytes (parts : List Bytes) : List Nat :=
  parts.foldl
    (fun f part => part.foldl (fun f b => f.set b (f.getD b 0 + 1)) f)
    (List.replicate 256 0)

/-- The C3 plaintext: `'c'` (the symbol whose canonical code overflows)
followed by 63 copies of `'q'` (the most frequent symbol, code `0`). -/
def ptC3 : Bytes := 0x63 :: List.replicate 63 0x71

/-- A concrete single-chunk file node used to exercise the file-node codec. -/
def sampleChunk : ChunkRef :=
  ⟨0, List.replicate 32 2, List.replicate 32 3, List.replicate 24 4⟩

def sampleFileNode : FileNode :=
  ⟨List.replicate 32 1, 5, some 1000, some 2000, [sampleChunk]⟩

/-! # Theorems -/

/-! ## Varint lemmas -/

theorem encode_varint_ne_nil (v : Nat) : encode_varint v ≠ [] := by
  rw [encode_varint_eq]
  by_cases h : v < 128 <;> simp [h]

theorem encode_varint_length_le :
    ∀ k v, v < 2 ^ (7 * (k + 1)) → (encode_varint v).length ≤ k + 1 := by
  intro k
  induction k with
  | zero =>
    intro v hv
    rw [encode_varint_eq, if_pos (by omega)]
    rfl
  | succ k ih =>
    intro v hv
    rw [encode_varint_eq]
    by_cases h : v < 128
    · simp [h]
    · rw [if_neg h]
      have : v / 128 < 2 ^ (7 * (k + 1)) := by
        have h128 : (128 : Nat) = 2 ^ 7 := by norm_num
        rw [h128, Nat.div_lt_iff_lt_mul (by positivity), ← pow_add]
        calc v < 2 ^ (7 * (k + 2)) := hv
        _ ≤ 2 ^ (7 * (k + 1) + 7) := Nat.pow_le_pow_right (by norm_num) (by omega)
      simpa using Nat.succ_le_succ (ih (v / 128) this)

/-- Decoding an encoded value embedded in a longer buffer, with general
accumulator state; the shift bound keeps the `TooLarge` guard quiet. -/
theorem dvAux_encode :
    ∀ v rest shift value count,
      shift + 7 * ((encode_varint v).length - 1) ≤ 49 →
      dvAux (encode_varint v ++ rest) shift value count =
        .ok (value + v * 2 ^ shift, count + (encode_varint v).length) := by
  intro v
  induction v using Nat.strong_induction_on with
  | _ v ih =>
    intro rest shift value count hshift
    by_cases h : v < 128
    · rw [encode_varint_eq, if_pos h] at *
      simp only [List.cons_append, List.nil_append, dvAux]
      rw [if_pos (by omega)]
      simp [Nat.mod_eq_of_lt h]
    · have hd : v / 128 < v := Nat.div_lt_self (by omega) (by omega)
      have hev : encode_varint v = (v % 128 + 128) :: encode_varint (v / 128) := by
        rw [encode_varint_eq, if_neg h]
      have hlen : (encode_varint v).length = (encode_varint (v / 128)).length + 1 := by
        rw [hev]; rfl
      have hlen1 : 1 ≤ (encode_varint (v / 128)).length :=
        List.length_pos.mpr (encode_varint_ne_nil _)
      rw [hev]
      simp only [List.cons_append, dvAux]
      rw [if_neg (by omega), if_neg (by omega)]
      have hm : (v % 128 + 128) % 128 = v % 128 := by omega
      rw [hm]
      show dvAux (encode_varint (v / 128) ++ rest) (shift + 7)
          (value + v % 128 * 2 ^ shift) (count + 1) = _
      rw [ih (v / 128) hd rest (shift + 7) (value + v % 128 * 2 ^ shift)
        (count + 1) (by omega)]
      have hval : value + v % 128 * 2 ^ shift + v / 128 * 2 ^ (shift + 7) =
          value + v * 2 ^ shift := by
        have hsplit : v % 128 + 128 * (v / 128) = v := Nat.mod_add_div v 128
        conv_rhs => rw [← hsplit]
        rw [pow_add]
        ring
      have hcnt : count + 1 + (encode_varint (v / 128)).length =
          count + ((v % 128 + 128) :: encode_varint (v / 128)).length := by
        simp only [List.length_cons]
        omega
      rw [hval, hcnt]

/-- C5: the varint round-trip law, proved for every `n < 2^56` (eight encoded
bytes); the claim's range `n ≤ 2^48` is a sub-range. -/
theorem varint_roundtrip_general (n : Nat) (h : n < 2 ^ 56) :
    decode_varint (encode_varint n) 0 = .ok (n, (encode_varint n).length) := by
  have hlen : (encode_varint n).length ≤ 8 := encode_varint_length_le 7 n h
  have := dvAux_encode n [] 0 0 0 (by omega)
  simpa [decode_varint] using this

/-- C5.  `encode_varint` then `decode_varint` at offset 0 returns the pair
`(n, L)` with `L` the encoded byte length, for every `n ≤ 2^48`. -/
theorem varint_roundtrip (n : Nat) (h : n ≤ 2 ^ 48) :
    decode_varint (encode_varint n) 0 = .ok (n, (encode_varint n).length) :=
  varint_roundtrip_general n (by calc n ≤ 2 ^ 48 := h
                                   _ < 2 ^ 56 := by norm_num)

/-- C5 witness: the round trip at the top of the claimed range, `n = 2^48`
(a 7-byte varint). -/
theorem varint_roundtrip_witness :
    2 ^ 48 ≤ 2 ^ 48 ∧
      decode_varint (encode_varint (2 ^ 48)) 0 = .ok (2 ^ 48, (encode_varint (2 ^ 48)).length) :=
  ⟨le_refl _, varint_roundtrip (2 ^ 48) (le_refl _)⟩

/-! ## Varint failure characterization (C6) -/

/-- A run of continuation bytes that ends the buffer while the shift budget
is not yet exhausted is reported as `Truncated`. -/
theorem dvAux_cont_trunc :
    ∀ (l : Bytes) shift value count, (∀ b ∈ l, 128 ≤ b % 256) →
      shift + 7 * l.length ≤ 49 →
      dvAux l shift value count = .error .truncated := by
  intro l
  induction l with
  | nil => intro _ _ _ _ _; rfl
  | cons b rest ih =>
    intro shift value count hc hlen
    simp only [dvAux]
    rw [if_neg (by have := hc b (by simp); omega), if_neg (by simp at hlen; omega)]
    exact ih _ _ _ (fun x hx => hc x (by simp [hx])) (by simp at hlen ⊢; omega)

/-- A run of continuation bytes long enough to exhaust the shift budget is
reported as `TooLarge` (`k` counts the continuation bytes up front). -/
theorem dvAux_cont_large :
    ∀ (k : Nat) (l : Bytes) shift value count, (∀ b ∈ l.take k, 128 ≤ b % 256) →
      shift ≤ 49 → 49 < shift + 7 * k → k ≤ l.length →
      dvAux l shift value count = .error .tooLarge := by
  intro k
  induction k with
  | zero => omega
  | succ k ih =>
    intro l shift value count hc hs hk hkl
    match l with
    | [] => simp at hkl
    | b :: rest =>
      simp only [dvAux]
      rw [if_neg (by have := hc b (by simp); omega)]
      by_cases h7 : shift + 7 > 49
      · rw [if_pos h7]
      · rw [if_neg h7]
        exact ih rest (shift + 7) _ _
          (fun x hx => hc x (by simp [List.take_succ_cons]; right; exact hx))
          (by omega) (by omega) (by simpa using hkl)

/-- A terminator byte at index `k` within the shift budget yields success
after exactly `k + 1` bytes. -/
theorem dvAux_term :
    ∀ (k : Nat) (l : Bytes) shift value count,
      (∀ j < k, 128 ≤ l.getD j 0 % 256) → l.getD k 0 % 256 < 128 →
      k < l.length → shift + 7 * k ≤ 49 →
      ∃ val, dvAux l shift value count = .ok (val, count + (k + 1)) := by
  intro k
  induction k with
  | zero =>
    intro l shift value count _ hterm hk _
    match l, hk with
    | b :: rest, _ =>
      simp only [List.getD_cons_zero] at hterm
      exact ⟨_, by simp only [dvAux]; rw [if_pos hterm]⟩
  | succ k ih =>
    intro l shift value count hc hterm hk hs
    match l with
    | [] => simp at hk
    | b :: rest =>
      have hb : 128 ≤ b % 256 := by have := hc 0 (by omega); simpa using this
      have hterm' : rest.getD k 0 % 256 < 128 := by simpa using hterm
      have hk' : k < rest.length := by simp only [List.length_cons] at hk; omega
      have hc' : ∀ j < k, 128 ≤ rest.getD j 0 % 256 := fun j hj => by
        have := hc (j + 1) (by omega)
        simpa using this
      simp only [dvAux]
      rw [if_neg (by omega), if_neg (by omega)]
      obtain ⟨val, hval⟩ := ih rest (shift + 7) (value + b % 128 * 2 ^ shift)
        (count + 1) hc' hterm' hk' (by omega)
      have hcnt : count + 1 + (k + 1) = count + (k + 1 + 1) := by omega
      exact ⟨val, by rw [hval, hcnt]⟩

/-- C6 counterexample: the 8-byte varint `[0x80 ×7, 0x01]` needs 50 payload
bits (its value is `2^49 > 2^48`), yet it decodes successfully — refuting
the claim that more than 49 payload bits always produce `TooLarge`. -/
theorem varint_decode_accepts_50_bits :
    decode_varint [0x80, 0x80, 0x80, 0x80, 0x80, 0x80, 0x80, 0x01] 0 =
      .ok (2 ^ 49, 8) ∧ 2 ^ 48 < 2 ^ 49 := by
  constructor
  · decide
  · norm_num

/-- C6 amended: the decoder's true failure behaviour.  With
`l := buf.drop offset`: (1) all-continuation input of fewer than 8 bytes is
`Truncated`; (2) 8 leading continuation bytes (more than 56 payload bits
needed) are `TooLarge`; (3) a first terminator at any index `k ≤ 7` (so up
to 8 bytes, 56 payload bits) decodes successfully. -/
theorem varint_decode_failures (buf : Bytes) (offset : Nat) :
    ((∀ b ∈ buf.drop offset, 128 ≤ b % 256) → (buf.drop offset).length ≤ 7 →
      decode_varint buf offset = .error .truncated) ∧
    ((∀ b ∈ (buf.drop offset).take 8, 128 ≤ b % 256) →
      8 ≤ (buf.drop offset).length →
      decode_varint buf offset = .error .tooLarge) ∧
    (∀ k ≤ 7, (∀ j < k, 128 ≤ (buf.drop offset).getD j 0 % 256) →
      (buf.drop offset).getD k 0 % 256 < 128 → k < (buf.drop offset).length →
      ∃ val, decode_varint buf offset = .ok (val, k + 1)) := by
  refine ⟨fun hc hlen => ?_, fun hc hlen => ?_, fun k hk hc hterm hkl => ?_⟩
  · exact dvAux_cont_trunc _ 0 0 0 hc (by omega)
  · exact dvAux_cont_large 8 _ 0 0 0 hc (by omega) (by omega) hlen
  · obtain ⟨val, hval⟩ := dvAux_term k _ 0 0 0 hc hterm hkl (by omega)
    exact ⟨val, by simpa [decode_varint] using hval⟩

/-- C6 amended witness: the three behaviours at concrete inputs — a lone
continuation byte (`Truncated`), eight continuation bytes (`TooLarge`), and
a terminator at index 7 (success after 8 bytes). -/
theorem varint_decode_failures_witness :
    decode_varint [0x80] 0 = .error .truncated ∧
      decode_varint [0x80, 0x80, 0x80, 0x80, 0x80, 0x80, 0x80, 0x80] 0 =
        .error .tooLarge ∧
      ∃ val, decode_varint [0x80, 0x80, 0x80, 0x80, 0x80, 0x80, 0x80, 0x01] 0 =
        .ok (val, 8) := by
  refine ⟨?_, ?_, ?_⟩
  · exact (varint_decode_failures [0x80] 0).1 (by decide) (by decide)
  · exact (varint_decode_failures [0x80, 0x80, 0x80, 0x80, 0x80, 0x80, 0x80, 0x80] 0).2.1
      (by decide) (by decide)
  · exact (varint_decode_failures [0x80, 0x80, 0x80, 0x80, 0x80, 0x80, 0x80, 0x01] 0).2.2
      7 (by omega) (by decide) (by decide) (by decide)

/-! ## Envelope lemmas -/

theorem crcStep_lt (c : Nat) (h : c < 2 ^ 32) : crcStep c < 2 ^ 32 := by
  unfold crcStep
  split
  · exact Nat.xor_lt_two_pow (by omega) (by norm_num)
  · omega

theorem crcTable_lt (i : Nat) (h : i < 2 ^ 32) : crcTable i < 2 ^ 32 := by
  unfold crcTable
  iterate 8 apply crcStep_lt
  exact h

theorem crc32_lt (data : Bytes) : crc32 data < 2 ^ 32 := by
  unfold crc32
  apply Nat.xor_lt_two_pow ?_ (by norm_num)
  have : ∀ (l : Bytes) (init : Nat), init < 2 ^ 32 →
      l.foldl (fun crc b => Nat.xor (crcTable (Nat.xor crc b % 256)) (crc / 256))
        init < 2 ^ 32 := by
    intro l
    induction l with
    | nil => exact fun _ h => h
    | cons b rest ih =>
      intro init hinit
      exact ih _ (Nat.xor_lt_two_pow (crcTable_lt _ (by omega)) (by omega))
  exact this data 0xFFFFFFFF (by norm_num)

theorem getUint32BE_crc32_bytes (data : Bytes) :
    getUint32BE (crc32_bytes data) = crc32 data := by
  have h := crc32_lt data
  unfold crc32_bytes getUint32BE
  simp only [List.getD_cons_zero, List.getD_cons_succ]
  omega

theorem ok_bind {ε α β : Type} (a : α) (f : α → Except ε β) :
    (Except.ok a : Except ε α) >>= f = f a := rfl

theorem err_bind {ε α β : Type} (e : ε) (f : α → Except ε β) :
    (Except.error e : Except ε α) >>= f = .error e := rfl

/-- Reading back a written envelope recovers the tag and the payload. -/
theorem read_write_envelope (tag : Nat) (payload : Bytes) (htag : tag < 256) :
    read_envelope (write_envelope tag payload) = .ok (tag, payload) := by
  have hwe : write_envelope tag payload =
      ([0x5A, 0x4B, 0x01, tag % 256] ++ payload) ++
        crc32_bytes ([0x5A, 0x4B, 0x01, tag % 256] ++ payload) := rfl
  set body : Bytes := [0x5A, 0x4B, 0x01, tag % 256] ++ payload with hbody
  have hcrclen : (crc32_bytes body).length = 4 := rfl
  have hblen : body.length = 4 + payload.length := by simp [hbody]; omega
  have hlen : (body ++ crc32_bytes body).length = body.length + 4 := by
    rw [List.length_append, hcrclen]
  rw [hwe]
  unfold read_envelope
  rw [if_neg (by omega)]
  have hg0 : (body ++ crc32_bytes body).getD 0 0 = 0x5A := by
    rw [List.getD_append _ _ _ _ (by omega)]; rfl
  have hg1 : (body ++ crc32_bytes body).getD 1 0 = 0x4B := by
    rw [List.getD_append _ _ _ _ (by omega)]; rfl
  have hg2 : (body ++ crc32_bytes body).getD 2 0 = 0x01 := by
    rw [List.getD_append _ _ _ _ (by omega)]; rfl
  have hg3 : (body ++ crc32_bytes body).getD 3 0 = tag % 256 := by
    rw [List.getD_append _ _ _ _ (by omega)]; rfl
  rw [if_neg (by rw [hg0, hg1]; norm_num)]
  rw [if_neg (by rw [hg2]; simp)]
  have htake : (body ++ crc32_bytes body).take ((body ++ crc32_bytes body).length - 4) =
      body := by
    rw [hlen, Nat.add_sub_cancel, List.take_left]
  have hdrop : (body ++ crc32_bytes body).drop ((body ++ crc32_bytes body).length - 4) =
      crc32_bytes body := by
    rw [hlen, Nat.add_sub_cancel, List.drop_left]
  have hverify : verify_crc32 (body ++ crc32_bytes body) = true := by
    unfold verify_crc32
    rw [if_neg (by omega), htake, hdrop, getUint32BE_crc32_bytes]
    exact beq_self_eq_true _
  rw [if_neg (by rw [hverify]; simp)]
  rw [htake, hg3, Nat.mod_eq_of_lt htag]
  simp [hbody]

/-- The first two bytes of any written envelope are the magic. -/
theorem has_magic_write_envelope (tag : Nat) (payload : Bytes) :
    has_magic (write_envelope tag payload) = true := by
  have hwe : write_envelope tag payload =
      ([0x5A, 0x4B, 0x01, tag % 256] ++ payload) ++
        crc32_bytes ([0x5A, 0x4B, 0x01, tag % 256] ++ payload) := rfl
  set body : Bytes := [0x5A, 0x4B, 0x01, tag % 256] ++ payload with hbody
  have h0 : (body ++ crc32_bytes body).getD 0 0 = 0x5A := by
    rw [List.getD_append _ _ _ _ (by simp [hbody])]; rfl
  have h1 : (body ++ crc32_bytes body).getD 1 0 = 0x4B := by
    rw [List.getD_append _ _ _ _ (by simp [hbody])]; rfl
  have h2 : 2 ≤ (body ++ crc32_bytes body).length := by
    simp [hbody]
  rw [hwe]
  unfold has_magic
  rw [h0, h1, decide_eq_true h2]
  rfl

/-! ## Pipeline decode (C9) -/

/-- C9 amended: `decompress_blob` applies no `original_size` check.  For any
method-`0x00` envelope whose data field has exactly the recorded
`compressed_len` bytes, it returns that data unchanged for **every** value of
the recorded `original_size` — matching or not. -/
theorem decompress_blob_none_ignores_size (ct os cl : Nat) (data : Bytes)
    (opts : PipelineOptions) (_hct : ct < 256) (hos : os < 2 ^ 56)
    (hcl : cl < 2 ^ 56) (hdata : data.length = cl) :
    decompress_blob
      (write_envelope 0x10 (0 :: ct :: (encode_varint os ++ encode_varint cl ++ data)))
      opts = .ok data := by
  unfold decompress_blob
  rw [read_write_envelope 0x10 _ (by norm_num), ok_bind]
  have hosl : (encode_varint os).length ≤ 8 := encode_varint_length_le 7 os hos
  have hcll : (encode_varint cl).length ≤ 8 := encode_varint_length_le 7 cl hcl
  have hdv1 : decode_varint
      (0 :: ct :: (encode_varint os ++ (encode_varint cl ++ data))) 2 =
      .ok (os, (encode_varint os).length) := by
    unfold decode_varint
    have hdrop : (0 :: ct :: (encode_varint os ++ (encode_varint cl ++ data))).drop 2 =
        encode_varint os ++ (encode_varint cl ++ data) := rfl
    rw [hdrop, dvAux_encode os _ 0 0 0 (by omega)]
    simp
  have hdv2 : decode_varint
      (0 :: ct :: (encode_varint os ++ (encode_varint cl ++ data)))
      (2 + (encode_varint os).length) =
      .ok (cl, (encode_varint cl).length) := by
    unfold decode_varint
    have hdrop : (0 :: ct :: (encode_varint os ++ (encode_varint cl ++ data))).drop
        (2 + (encode_varint os).length) =
        encode_varint cl ++ data := by
      rw [show (0 : Nat) :: ct :: (encode_varint os ++ (encode_varint cl ++ data)) =
        ((0 : Nat) :: ct :: encode_varint os) ++ (encode_varint cl ++ data) by simp,
        show 2 + (encode_varint os).length =
          ((0 : Nat) :: ct :: encode_varint os).length by simp; omega,
        List.drop_left]
    rw [hdrop, dvAux_encode cl data 0 0 0 (by omega)]
    simp
  have hslice : slice (0 :: ct :: (encode_varint os ++ (encode_varint cl ++ data)))
      (2 + (encode_varint os).length + (encode_varint cl).length)
      (2 + (encode_varint os).length + (encode_varint cl).length + cl) = data := by
    unfold slice
    rw [show (0 : Nat) :: ct :: (encode_varint os ++ (encode_varint cl ++ data)) =
      ((0 : Nat) :: ct :: (encode_varint os ++ encode_varint cl)) ++ data by simp]
    have hpre : ((0 : Nat) :: ct :: (encode_varint os ++ encode_varint cl)).length =
        2 + (encode_varint os).length + (encode_varint cl).length := by
      simp; omega
    rw [show 2 + (encode_varint os).length + (encode_varint cl).length + cl =
      (((0 : Nat) :: ct :: (encode_varint os ++ encode_varint cl)) ++ data).length by
        simp [hdata]; omega]
    rw [List.take_length, ← hpre, List.drop_left]
  simp [hdv1, hdv2, hslice, ok_bind]

/-- C9 amended witness: a method-none envelope recording `original_size = 5`
around an empty data field decompresses to the empty byte string (length 0)
with no error. -/
theorem decompress_blob_none_ignores_size_witness :
    decompress_blob
      (write_envelope 0x10 (0 :: 0 :: (encode_varint 5 ++ encode_varint 0 ++ [])))
      ⟨none, none, none⟩ = .ok [] :=
  decompress_blob_none_ignores_size 0 5 0 [] ⟨none, none, none⟩ (by norm_num)
    (by norm_num) (by norm_num) rfl

/-! ## Slice, fit and timestamp lemmas -/

theorem fit_eq (w : Nat) (b : Bytes) (h : b.length = w) : fit w b = b := by
  unfold fit
  rw [h, ← h, List.take_length, Nat.sub_self]
  simp

theorem slice_append (pre x rest : Bytes) :
    slice (pre ++ (x ++ rest)) pre.length (pre.length + x.length) = x := by
  unfold slice
  rw [List.take_append, List.drop_left, List.take_left]

theorem slice_first (x rest : Bytes) : slice (x ++ rest) 0 x.length = x := by
  unfold slice
  rw [List.take_left, List.drop_zero]

theorem encode_timestamp_length (ts : Option Nat) : (encode_timestamp ts).length = 6 := by
  cases ts <;> rfl

/-- Decoding a timestamp written at the end of a prefix: the six big-endian
digits reassemble to the value modulo `2^48`. -/
theorem decode_timestamp_encode (pre rest : Bytes) (t : Nat) :
    decode_timestamp (pre ++ (encode_timestamp (some t) ++ rest)) pre.length =
      some (t % 2 ^ 48) := by
  unfold decode_timestamp
  have hlen : pre.length + 6 ≤ (pre ++ (encode_timestamp (some t) ++ rest)).length := by
    simp [encode_timestamp]
  rw [if_pos hlen, List.drop_left]
  have htake : (encode_timestamp (some t) ++ rest).take 6 = encode_timestamp (some t) := by
    rw [show (6 : Nat) = (encode_timestamp (some t)).length from rfl, List.take_left]
  rw [htake]
  refine congrArg some ?_
  simp only [encode_timestamp, List.foldl_cons, List.foldl_nil]
  omega

/-- Decoding a varint written at the end of a prefix. -/
theorem decode_varint_encode (pre rest : Bytes) (v : Nat) (h : v < 2 ^ 56) :
    decode_varint (pre ++ (encode_varint v ++ rest)) pre.length =
      .ok (v, (encode_varint v).length) := by
  have hlen : (encode_varint v).length ≤ 8 := encode_varint_length_le 7 v h
  unfold decode_varint
  rw [List.drop_left, dvAux_encode v rest 0 0 0 (by omega)]
  simp

set_option maxRecDepth 10000 in
/-- C9 counterexample: an accepted envelope (valid magic, version, CRC, tag
`0x10`, method `0x00`) whose recorded `original_size` is 5 decompresses
silently to a plaintext of length 0 — no `LengthMismatch` (nor any other
error) is raised by the pipeline. -/
theorem decompress_blob_no_length_check :
    decompress_blob (write_envelope 0x10 [0x00, 0x00, 0x05, 0x00])
        ⟨none, none, none⟩ = .ok [] ∧
      decode_varint [0x00, 0x00, 0x05, 0x00] 2 = .ok (5, 1) ∧
      ([] : Bytes).length ≠ 5 := by
  refine ⟨?_, by decide, by decide⟩
  rfl

/-! ## DirNode decode (C7) -/

/-- Any has-group byte other than `0x01` is treated as "group absent"; the
remaining fields are read from offset 33. -/
theorem dir_decode_absent (root : Bytes) (b t1 t2 : Nat)
    (hroot : root.length = 32) (hb : b ≠ 1) :
    decode_dir_node_payload
        ((root ++ [b]) ++ (encode_timestamp (some t1) ++ encode_timestamp (some t2))) =
      ⟨root, none, some (t1 % 2 ^ 48), some (t2 % 2 ^ 48)⟩ := by
  have hpre : (root ++ [b]).length = 33 := by simp [hroot]
  have hg32 : (((root ++ [b]) ++ (encode_timestamp (some t1) ++
      encode_timestamp (some t2)))).getD 32 0 = b := by
    rw [List.getD_append _ _ _ _ (by omega), List.getD_append_right _ _ _ _ (by omega),
      hroot]
    rfl
  have hbeq : (b == 1) = false := beq_eq_false_iff_ne.mpr hb
  unfold decode_dir_node_payload
  rw [hg32, hbeq]
  simp only [Bool.false_eq_true, if_false]
  have hcreated : decode_timestamp ((root ++ [b]) ++ (encode_timestamp (some t1) ++
      encode_timestamp (some t2))) 33 = some (t1 % 2 ^ 48) := by
    rw [← hpre, decode_timestamp_encode]
  have hbuf : (root ++ [b]) ++ (encode_timestamp (some t1) ++ encode_timestamp (some t2)) =
      ((root ++ [b]) ++ encode_timestamp (some t1)) ++ (encode_timestamp (some t2) ++ []) := by
    simp
  have hpre2 : ((root ++ [b]) ++ encode_timestamp (some t1)).length = 39 := by
    simp [hroot, encode_timestamp_length]
  have hmodified : decode_timestamp ((root ++ [b]) ++ (encode_timestamp (some t1) ++
      encode_timestamp (some t2))) (33 + 6) = some (t2 % 2 ^ 48) := by
    rw [hbuf, show (33 + 6 : Nat) = ((root ++ [b]) ++ encode_timestamp (some t1)).length
      from hpre2.symm, decode_timestamp_encode]
  have hroot' : slice ((root ++ [b]) ++ (encode_timestamp (some t1) ++
      encode_timestamp (some t2))) 0 32 = root := by
    rw [List.append_assoc, show (32 : Nat) = root.length from hroot.symm, slice_first]
  rw [hcreated, hmodified, hroot']

/-- The has-group byte `0x01` reads a 32-byte group id; the remaining fields
follow at offset 65. -/
theorem dir_decode_present (root g : Bytes) (t1 t2 : Nat)
    (hroot : root.length = 32) (hg : g.length = 32) :
    decode_dir_node_payload
        ((root ++ [1]) ++ (g ++ (encode_timestamp (some t1) ++ encode_timestamp (some t2)))) =
      ⟨root, some g, some (t1 % 2 ^ 48), some (t2 % 2 ^ 48)⟩ := by
  have hpre : (root ++ [1]).length = 33 := by simp [hroot]
  have hg32 : ((root ++ [1]) ++ (g ++ (encode_timestamp (some t1) ++
      encode_timestamp (some t2)))).getD 32 0 = 1 := by
    rw [List.getD_append _ _ _ _ (by omega), List.getD_append_right _ _ _ _ (by omega),
      hroot]
    rfl
  unfold decode_dir_node_payload
  rw [hg32]
  simp only [beq_self_eq_true, if_true]
  have hgroup : slice ((root ++ [1]) ++ (g ++ (encode_timestamp (some t1) ++
      encode_timestamp (some t2)))) 33 65 = g := by
    rw [show (33 : Nat) = (root ++ [1]).length from hpre.symm,
      show (65 : Nat) = (root ++ [1]).length + g.length from by rw [hpre, hg],
      slice_append]
  have hbuf2 : (root ++ [1]) ++ (g ++ (encode_timestamp (some t1) ++
      encode_timestamp (some t2))) =
      ((root ++ [1]) ++ g) ++ (encode_timestamp (some t1) ++ encode_timestamp (some t2)) := by
    simp
  have hpre2 : ((root ++ [1]) ++ g).length = 65 := by simp [hroot, hg]
  have hcreated : decode_timestamp ((root ++ [1]) ++ (g ++ (encode_timestamp (some t1) ++
      encode_timestamp (some t2)))) 65 = some (t1 % 2 ^ 48) := by
    rw [hbuf2, ← hpre2, decode_timestamp_encode]
  have hbuf3 : (root ++ [1]) ++ (g ++ (encode_timestamp (some t1) ++
      encode_timestamp (some t2))) =
      (((root ++ [1]) ++ g) ++ encode_timestamp (some t1)) ++
        (encode_timestamp (some t2) ++ []) := by
    simp
  have hpre3 : (((root ++ [1]) ++ g) ++ encode_timestamp (some t1)).length = 71 := by
    simp [hroot, hg, encode_timestamp_length]
  have hmodified : decode_timestamp ((root ++ [1]) ++ (g ++ (encode_timestamp (some t1) ++
      encode_timestamp (some t2)))) (65 + 6) = some (t2 % 2 ^ 48) := by
    rw [hbuf3, show (65 + 6 : Nat) = (((root ++ [1]) ++ g) ++
      encode_timestamp (some t1)).length from hpre3.symm, decode_timestamp_encode]
  have hroot' : slice ((root ++ [1]) ++ (g ++ (encode_timestamp (some t1) ++
      encode_timestamp (some t2)))) 0 32 = root := by
    rw [List.append_assoc, show (32 : Nat) = root.length from hroot.symm, slice_first]
  rw [hcreated, hmodified, hroot', hgroup]

/-- C7 amended: the has-group byte `0x01` means "group id present" and is
decoded as such; **every** other byte value (not only `0x00`) is silently
treated as "group absent" — no value is rejected as `Malformed`
(`decode_dir_node_payload` is total and never fails). -/
theorem dir_node_has_group_byte (root g : Bytes) (b t1 t2 : Nat)
    (hroot : root.length = 32) (hg : g.length = 32) (hb : b ≠ 0x01) :
    decode_dir_node_payload
        (root ++ [b] ++ encode_timestamp (some t1) ++ encode_timestamp (some t2)) =
      ⟨root, none, some (t1 % 2 ^ 48), some (t2 % 2 ^ 48)⟩ ∧
    decode_dir_node_payload
        (root ++ [0x01] ++ g ++ encode_timestamp (some t1) ++ encode_timestamp (some t2)) =
      ⟨root, some g, some (t1 % 2 ^ 48), some (t2 % 2 ^ 48)⟩ := by
  constructor
  · have h := dir_decode_absent root b t1 t2 hroot hb
    rw [show root ++ [b] ++ encode_timestamp (some t1) ++ encode_timestamp (some t2) =
      (root ++ [b]) ++ (encode_timestamp (some t1) ++ encode_timestamp (some t2)) by simp]
    exact h
  · have h := dir_decode_present root g t1 t2 hroot hg
    rw [show root ++ [0x01] ++ g ++ encode_timestamp (some t1) ++
      encode_timestamp (some t2) =
      (root ++ [1]) ++ (g ++ (encode_timestamp (some t1) ++ encode_timestamp (some t2)))
      by simp]
    exact h

/-- C7 amended witness: has-group byte `0x02` decodes as "absent" and byte
`0x01` decodes the group id, on concrete 45- and 77-byte payloads. -/
theorem dir_node_has_group_byte_witness :
    decode_dir_node_payload
        (List.replicate 32 0xAA ++ [0x02] ++ encode_timestamp (some 12345) ++
          encode_timestamp (some 99)) =
      ⟨List.replicate 32 0xAA, none, some (12345 % 2 ^ 48), some (99 % 2 ^ 48)⟩ ∧
    decode_dir_node_payload
        (List.replicate 32 0xAA ++ [0x01] ++ List.replicate 32 0xBB ++
          encode_timestamp (some 12345) ++ encode_timestamp (some 99)) =
      ⟨List.replicate 32 0xAA, some (List.replicate 32 0xBB), some (12345 % 2 ^ 48),
        some (99 % 2 ^ 48)⟩ :=
  dir_node_has_group_byte (List.replicate 32 0xAA) (List.replicate 32 0xBB)
    0x02 12345 99 (by decide) (by decide) (by decide)

set_option maxRecDepth 2000 in
/-- C7 counterexample: a 45-byte payload whose has-group byte is `0x02` is
decoded successfully (group treated as absent) instead of failing with
`Malformed`. -/
theorem dir_node_bad_byte_not_malformed :
    decode_dir_node_payload
        (List.replicate 32 0 ++ [0x02] ++ encode_timestamp (some 7) ++
          encode_timestamp (some 8)) =
      ⟨List.replicate 32 0, none, some 7, some 8⟩ := by
  decide

/-! ## FileNode round trip (C8 part 1, C10) -/

theorem encode_chunk_ref_eq (c : ChunkRef) (hh : c.hash.length = 32)
    (hb : c.blob_address.length = 32) (hn : c.nonce.length = 24) :
    encode_chunk_ref c =
      encode_varint c.index ++ (c.hash ++ (c.blob_address ++ c.nonce)) := by
  unfold encode_chunk_ref
  rw [fit_eq 32 c.hash hh, fit_eq 32 c.blob_address hb, fit_eq 24 c.nonce hn]
  simp

theorem encode_chunk_ref_length (c : ChunkRef) (hh : c.hash.length = 32)
    (hb : c.blob_address.length = 32) (hn : c.nonce.length = 24) :
    (encode_chunk_ref c).length = (encode_varint c.index).length + 88 := by
  rw [encode_chunk_ref_eq c hh hb hn]
  simp [hh, hb, hn]

/-- A chunk ref written after a prefix decodes to itself, consuming its
varint length plus 88 bytes. -/
theorem decode_chunk_ref_encode (c : ChunkRef) (pre rest : Bytes)
    (hwf : ChunkRefWF c) :
    decode_chunk_ref (pre ++ (encode_chunk_ref c ++ rest)) pre.length =
      .ok (c, (encode_varint c.index).length + 88) := by
  obtain ⟨hh, hb, hn, hi⟩ := hwf
  rw [encode_chunk_ref_eq c hh hb hn]
  have hdv : decode_varint
      (pre ++ (encode_varint c.index ++ (c.hash ++ (c.blob_address ++ c.nonce)) ++ rest))
      pre.length = .ok (c.index, (encode_varint c.index).length) := by
    rw [show encode_varint c.index ++ (c.hash ++ (c.blob_address ++ c.nonce)) ++ rest =
      encode_varint c.index ++ ((c.hash ++ (c.blob_address ++ c.nonce)) ++ rest) by simp]
    exact decode_varint_encode pre _ c.index hi
  unfold decode_chunk_ref
  rw [hdv, ok_bind]
  set L := (encode_varint c.index).length with hL
  have hhash : slice
      (pre ++ (encode_varint c.index ++ (c.hash ++ (c.blob_address ++ c.nonce)) ++ rest))
      (pre.length + L) (pre.length + L + 32) = c.hash := by
    rw [show pre ++ (encode_varint c.index ++ (c.hash ++ (c.blob_address ++ c.nonce)) ++ rest) =
      (pre ++ encode_varint c.index) ++ (c.hash ++ (c.blob_address ++ (c.nonce ++ rest)))
      by simp,
      show pre.length + L = (pre ++ encode_varint c.index).length by simp [hL],
      show (pre ++ encode_varint c.index).length + 32 =
        (pre ++ encode_varint c.index).length + c.hash.length by rw [hh]]
    exact slice_append _ _ _
  have hblob : slice
      (pre ++ (encode_varint c.index ++ (c.hash ++ (c.blob_address ++ c.nonce)) ++ rest))
      (pre.length + L + 32) (pre.length + L + 64) = c.blob_address := by
    rw [show pre ++ (encode_varint c.index ++ (c.hash ++ (c.blob_address ++ c.nonce)) ++ rest) =
      ((pre ++ encode_varint c.index) ++ c.hash) ++ (c.blob_address ++ (c.nonce ++ rest))
      by simp,
      show pre.length + L + 32 = ((pre ++ encode_varint c.index) ++ c.hash).length by
        simp [hL, hh]; omega,
      show pre.length + L + 64 =
        ((pre ++ encode_varint c.index) ++ c.hash).length + c.blob_address.length by
        simp [hL, hh, hb]; omega]
    exact slice_append _ _ _
  have hnonce : slice
      (pre ++ (encode_varint c.index ++ (c.hash ++ (c.blob_address ++ c.nonce)) ++ rest))
      (pre.length + L + 64) (pre.length + L + 88) = c.nonce := by
    rw [show pre ++ (encode_varint c.index ++ (c.hash ++ (c.blob_address ++ c.nonce)) ++ rest) =
      (((pre ++ encode_varint c.index) ++ c.hash) ++ c.blob_address) ++ (c.nonce ++ rest)
      by simp,
      show pre.length + L + 64 =
        (((pre ++ encode_varint c.index) ++ c.hash) ++ c.blob_address).length by
        simp [hL, hh, hb]; omega,
      show pre.length + L + 88 =
        (((pre ++ encode_varint c.index) ++ c.hash) ++ c.blob_address).length +
          c.nonce.length by simp [hL, hh, hb, hn]; omega]
    exact slice_append _ _ _
  simp only [hhash, hblob, hnonce]

/-- The chunk loop decodes an encoded chunk list back to itself. -/
theorem decodeChunks_encode :
    ∀ (cs : List ChunkRef) (pre : Bytes), (∀ c ∈ cs, ChunkRefWF c) →
      decodeChunks (pre ++ (cs.map encode_chunk_ref).flatten) pre.length cs.length =
        .ok cs := by
  intro cs
  induction cs with
  | nil => intro pre _; rfl
  | cons c cs ih =>
    intro pre hwf
    have hcwf := hwf c (by simp)
    obtain ⟨hh, hb, hn, hi⟩ := hcwf
    have hflat : ((c :: cs).map encode_chunk_ref).flatten =
        encode_chunk_ref c ++ (cs.map encode_chunk_ref).flatten := by simp
    have hdc : decode_chunk_ref (pre ++ ((c :: cs).map encode_chunk_ref).flatten)
        pre.length = .ok (c, (encode_varint c.index).length + 88) := by
      rw [hflat]
      exact decode_chunk_ref_encode c pre _ ⟨hh, hb, hn, hi⟩
    have hoff : pre.length + ((encode_varint c.index).length + 88) =
        (pre ++ encode_chunk_ref c).length := by
      simp [encode_chunk_ref_length c hh hb hn]
    have hbuf : pre ++ ((c :: cs).map encode_chunk_ref).flatten =
        (pre ++ encode_chunk_ref c) ++ (cs.map encode_chunk_ref).flatten := by
      rw [hflat]; simp
    show decodeChunks _ _ (cs.length + 1) = _
    unfold decodeChunks
    rw [hdc, ok_bind]
    show (do
        let cs' ← decodeChunks (pre ++ ((c :: cs).map encode_chunk_ref).flatten)
          (pre.length + ((encode_varint c.index).length + 88)) cs.length
        Except.ok (c :: cs') : Except Err (List ChunkRef)) = _
    rw [hoff, hbuf, ih (pre ++ encode_chunk_ref c) (fun x hx => hwf x (by simp [hx])),
      ok_bind]

/-- Decoding an encoded file-node payload: all fields come back, chunk list
in order, timestamps reduced modulo `2^48`. -/
theorem decode_file_node_payload_encode (node : FileNode) (t1 t2 : Nat)
    (hwf : FileNodeWF node) (hc : node.created = some t1)
    (hm : node.modified = some t2) :
    decode_file_node_payload (file_node_payload node) =
      .ok { node with created := some (t1 % 2 ^ 48), modified := some (t2 % 2 ^ 48) } := by
  obtain ⟨hch, hsize, hcount, _, _, hcs⟩ := hwf
  have hpl : file_node_payload node =
      node.content_hash ++ (encode_timestamp (some t1) ++ (encode_timestamp (some t2) ++
        (encode_varint node.size ++ (encode_varint node.chunks.length ++
          (node.chunks.map encode_chunk_ref).flatten)))) := by
    unfold file_node_payload
    rw [fit_eq 32 node.content_hash hch, hc, hm]
    simp
  have hhash : slice (file_node_payload node) 0 32 = node.content_hash := by
    rw [hpl, show (32 : Nat) = node.content_hash.length from hch.symm, slice_first]
  have hcreated : decode_timestamp (file_node_payload node) 32 = some (t1 % 2 ^ 48) := by
    rw [hpl, show (32 : Nat) = node.content_hash.length from hch.symm,
      decode_timestamp_encode]
  have hmodified : decode_timestamp (file_node_payload node) 38 = some (t2 % 2 ^ 48) := by
    rw [hpl, show node.content_hash ++ (encode_timestamp (some t1) ++
        (encode_timestamp (some t2) ++ (encode_varint node.size ++
          (encode_varint node.chunks.length ++
            (node.chunks.map encode_chunk_ref).flatten)))) =
      (node.content_hash ++ encode_timestamp (some t1)) ++ (encode_timestamp (some t2) ++
        (encode_varint node.size ++ (encode_varint node.chunks.length ++
          (node.chunks.map encode_chunk_ref).flatten))) by simp,
      show (38 : Nat) = (node.content_hash ++ encode_timestamp (some t1)).length by
        simp [hch, encode_timestamp_length],
      decode_timestamp_encode]
  have hsz : decode_varint (file_node_payload node) 44 =
      .ok (node.size, (encode_varint node.size).length) := by
    rw [hpl, show node.content_hash ++ (encode_timestamp (some t1) ++
        (encode_timestamp (some t2) ++ (encode_varint node.size ++
          (encode_varint node.chunks.length ++
            (node.chunks.map encode_chunk_ref).flatten)))) =
      ((node.content_hash ++ encode_timestamp (some t1)) ++ encode_timestamp (some t2)) ++
        (encode_varint node.size ++ (encode_varint node.chunks.length ++
          (node.chunks.map encode_chunk_ref).flatten)) by simp,
      show (44 : Nat) = ((node.content_hash ++ encode_timestamp (some t1)) ++
        encode_timestamp (some t2)).length by simp [hch, encode_timestamp_length],
      decode_varint_encode _ _ _ hsize]
  have hcnt : decode_varint (file_node_payload node)
      (44 + (encode_varint node.size).length) =
      .ok (node.chunks.length, (encode_varint node.chunks.length).length) := by
    rw [hpl, show node.content_hash ++ (encode_timestamp (some t1) ++
        (encode_timestamp (some t2) ++ (encode_varint node.size ++
          (encode_varint node.chunks.length ++
            (node.chunks.map encode_chunk_ref).flatten)))) =
      (((node.content_hash ++ encode_timestamp (some t1)) ++ encode_timestamp (some t2)) ++
        encode_varint node.size) ++ (encode_varint node.chunks.length ++
          (node.chunks.map encode_chunk_ref).flatten) by simp,
      show 44 + (encode_varint node.size).length =
        (((node.content_hash ++ encode_timestamp (some t1)) ++ encode_timestamp (some t2)) ++
          encode_varint node.size).length by simp [hch, encode_timestamp_length]; omega,
      decode_varint_encode _ _ _ hcount]
  have hchunks : decodeChunks (file_node_payload node)
      (44 + (encode_varint node.size).length + (encode_varint node.chunks.length).length)
      node.chunks.length = .ok node.chunks := by
    rw [hpl, show node.content_hash ++ (encode_timestamp (some t1) ++
        (encode_timestamp (some t2) ++ (encode_varint node.size ++
          (encode_varint node.chunks.length ++
            (node.chunks.map encode_chunk_ref).flatten)))) =
      ((((node.content_hash ++ encode_timestamp (some t1)) ++ encode_timestamp (some t2)) ++
        encode_varint node.size) ++ encode_varint node.chunks.length) ++
          (node.chunks.map encode_chunk_ref).flatten by simp,
      show 44 + (encode_varint node.size).length + (encode_varint node.chunks.length).length =
        ((((node.content_hash ++ encode_timestamp (some t1)) ++ encode_timestamp (some t2)) ++
          encode_varint node.size) ++ encode_varint node.chunks.length).length by
        simp [hch, encode_timestamp_length]; omega,
      decodeChunks_encode node.chunks _ hcs]
  unfold decode_file_node_payload
  simp only [hsz, hcnt, hchunks, hhash, hcreated, hmodified, ok_bind]

/-! ## FileNode truncation (C8 part 2) -/

theorem dvAux_count_gt :
    ∀ (l : Bytes) shift value count val cnt,
      dvAux l shift value count = .ok (val, cnt) → count < cnt := by
  intro l
  induction l with
  | nil => intro _ _ _ _ _ h; exact absurd h (by simp [dvAux])
  | cons b rest ih =>
    intro shift value count val cnt h
    simp only [dvAux] at h
    split at h
    · simp only [Except.ok.injEq, Prod.mk.injEq] at h
      omega
    · split at h
      · exact absurd h (by simp)
      · exact Nat.lt_of_succ_lt (ih _ _ _ _ _ h)

/-- A successful decode only looks at the bytes it consumed: restricting the
buffer to at least that many bytes gives the same result. -/
theorem dvAux_take :
    ∀ (l : Bytes) shift value count val cnt m,
      dvAux l shift value count = .ok (val, cnt) → cnt ≤ count + m →
      dvAux (l.take m) shift value count = .ok (val, cnt) := by
  intro l
  induction l with
  | nil => intro _ _ _ _ _ _ h; exact absurd h (by simp [dvAux])
  | cons b rest ih =>
    intro shift value count val cnt m h hm
    have hcnt := dvAux_count_gt _ _ _ _ _ _ h
    obtain ⟨m, rfl⟩ : ∃ m', m = m' + 1 := ⟨m - 1, by omega⟩
    rw [List.take_succ_cons]
    simp only [dvAux] at h ⊢
    by_cases hb : b % 256 < 128
    · rw [if_pos hb] at h ⊢
      exact h
    · rw [if_neg hb] at h ⊢
      by_cases hs : shift + 7 > 49
      · rw [if_pos hs] at h
        exact absurd h (by simp)
      · rw [if_neg hs] at h ⊢
        exact ih _ _ _ _ _ m h (by omega)

theorem decode_varint_take (buf : Bytes) (off p v k : Nat)
    (h : decode_varint buf off = .ok (v, k)) (hp : off + k ≤ p) :
    decode_varint (buf.take p) off = .ok (v, k) := by
  unfold decode_varint at h ⊢
  rw [List.drop_take p off buf]
  exact dvAux_take _ _ _ _ _ _ _ h (by omega)

/-- Every byte of an encoded varint except the last carries the continuation
bit. -/
theorem ev_take_cont :
    ∀ v k, k + 1 ≤ (encode_varint v).length →
      ∀ b ∈ (encode_varint v).take k, 128 ≤ b % 256 := by
  intro v
  induction v using Nat.strong_induction_on with
  | _ v ih =>
    intro k hk b hb
    by_cases h : v < 128
    · rw [encode_varint_eq, if_pos h] at hk hb
      simp only [List.length_cons, List.length_nil] at hk
      have hk0 : k = 0 := by omega
      subst hk0
      simp at hb

    · have hd : v / 128 < v := Nat.div_lt_self (by omega) (by omega)
      rw [encode_varint_eq, if_neg h] at hk hb
      match k with
      | 0 => simp at hb
      | k + 1 =>
        rw [List.take_succ_cons] at hb
        rcases List.mem_cons.mp hb with rfl | hb'
        · omega
        · exact ih (v / 128) hd k (by simpa using hk) b hb'

/-- Cutting a buffer inside a varint leaves only continuation bytes, so the
decoder runs off the end: `Truncated`. -/
theorem decode_varint_cut (pre : Bytes) (v k : Nat) (hv : v < 2 ^ 56)
    (hk : k < (encode_varint v).length) :
    decode_varint (pre ++ (encode_varint v).take k) pre.length = .error .truncated := by
  have hlen : (encode_varint v).length ≤ 8 := encode_varint_length_le 7 v hv
  unfold decode_varint
  rw [List.drop_left]
  refine dvAux_cont_trunc _ _ _ _ (ev_take_cont v k (by omega)) ?_
  rw [List.length_take]
  omega

/-- Decoding past the end of the buffer: `Truncated`. -/
theorem decode_varint_oob (buf : Bytes) (off : Nat) (h : buf.length ≤ off) :
    decode_varint buf off = .error .truncated := by
  unfold decode_varint
  rw [List.drop_eq_nil_of_le h]
  rfl

/-- Whenever the index varint decodes, `decode_chunk_ref` succeeds and
advances by the varint length plus 88 — it never validates the three
fixed-width slices. -/
theorem decode_chunk_ref_shape (buf : Bytes) (off v L : Nat)
    (h : decode_varint buf off = .ok (v, L)) :
    decode_chunk_ref buf off =
      .ok ({ index := v, hash := slice buf (off + L) (off + L + 32),
             blob_address := slice buf (off + L + 32) (off + L + 64),
             nonce := slice buf (off + L + 64) (off + L + 88) }, L + 88) := by
  unfold decode_chunk_ref
  rw [h, ok_bind]

/-- Errors of the index varint propagate out of `decode_chunk_ref`. -/
theorem decode_chunk_ref_err (buf : Bytes) (off : Nat) (e : Err)
    (h : decode_varint buf off = .error e) :
    decode_chunk_ref buf off = .error e := by
  unfold decode_chunk_ref
  rw [h]
  rfl

/-- One unrolling of the chunk loop when the head chunk parses. -/
theorem decodeChunks_step (buf : Bytes) (off n : Nat) (c : ChunkRef) (k : Nat)
    (h : decode_chunk_ref buf off = .ok (c, k)) :
    decodeChunks buf off (n + 1) = (decodeChunks buf (off + k) n).map (c :: ·) := by
  rw [decodeChunks.eq_2, h]
  show (decodeChunks buf (off + k) n).bind (fun cs => Except.ok (c :: cs)) = _
  cases decodeChunks buf (off + k) n <;> rfl

/-- One unrolling of the chunk loop when the head chunk fails. -/
theorem decodeChunks_err (buf : Bytes) (off n : Nat) (e : Err)
    (h : decode_chunk_ref buf off = .error e) :
    decodeChunks buf off (n + 1) = .error e := by
  unfold decodeChunks
  rw [h]
  rfl

/-- Cutting an encoded chunk list anywhere before the 88-byte fixed tail of
its final chunk makes the chunk loop fail with `Truncated`. -/
theorem decodeChunksCut :
    ∀ (cs : List ChunkRef) (pre : Bytes) (p : Nat),
      (∀ c ∈ cs, ChunkRefWF c) → pre.length ≤ p →
      p + 88 < pre.length + ((cs.map encode_chunk_ref).flatten).length →
      decodeChunks ((pre ++ (cs.map encode_chunk_ref).flatten).take p)
        pre.length cs.length = .error .truncated := by
  intro cs
  induction cs with
  | nil => intro pre p _ h1 h2; simp at h2; omega
  | cons c cs ih =>
    intro pre p hwf hp1 hp2
    obtain ⟨k, rfl⟩ : ∃ k, p = pre.length + k := ⟨p - pre.length, by omega⟩
    obtain ⟨hh, hb, hn, hi⟩ := hwf c (by simp)
    set L := (encode_varint c.index).length with hL
    have hLle : L ≤ 8 := encode_varint_length_le 7 c.index hi
    have hflat : ((c :: cs).map encode_chunk_ref).flatten =
        encode_chunk_ref c ++ (cs.map encode_chunk_ref).flatten := by simp
    have henc : encode_chunk_ref c =
        encode_varint c.index ++ (c.hash ++ (c.blob_address ++ c.nonce)) :=
      encode_chunk_ref_eq c hh hb hn
    have henclen : (encode_chunk_ref c).length = L + 88 :=
      encode_chunk_ref_length c hh hb hn
    have htake : (pre ++ ((c :: cs).map encode_chunk_ref).flatten).take (pre.length + k) =
        pre ++ (((c :: cs).map encode_chunk_ref).flatten).take k :=
      List.take_append k
    show decodeChunks _ _ (cs.length + 1) = _
    by_cases hcase1 : k < L
    · -- the cut lies inside (or right at the start of) the index varint
      have hket : (pre ++ ((c :: cs).map encode_chunk_ref).flatten).take (pre.length + k) =
          pre ++ (encode_varint c.index).take k := by
        rw [htake, hflat, henc]
        congr 1
        rw [show encode_varint c.index ++ (c.hash ++ (c.blob_address ++ c.nonce)) ++
          (cs.map encode_chunk_ref).flatten =
          encode_varint c.index ++ ((c.hash ++ (c.blob_address ++ c.nonce)) ++
            (cs.map encode_chunk_ref).flatten) by simp]
        rw [List.take_append_eq_append_take,
          Nat.sub_eq_zero_of_le (by omega), List.take_zero, List.append_nil]
      rw [hket]
      exact decodeChunks_err _ _ _ _ (decode_chunk_ref_err _ _ _
        (decode_varint_cut pre c.index k hi (by omega)))
    · -- the index varint is intact; the chunk announces L + 88 bytes
      have hdvfull : decode_varint (pre ++ ((c :: cs).map encode_chunk_ref).flatten)
          pre.length = .ok (c.index, L) := by
        rw [hflat, henc, show pre ++ (encode_varint c.index ++
          (c.hash ++ (c.blob_address ++ c.nonce)) ++ (cs.map encode_chunk_ref).flatten) =
          pre ++ (encode_varint c.index ++ ((c.hash ++ (c.blob_address ++ c.nonce)) ++
            (cs.map encode_chunk_ref).flatten)) by simp]
        exact decode_varint_encode pre _ c.index hi
      have hdvtake : decode_varint ((pre ++ ((c :: cs).map
          encode_chunk_ref).flatten).take (pre.length + k)) pre.length =
          .ok (c.index, L) :=
        decode_varint_take _ _ _ _ _ hdvfull (by omega)
      rw [decodeChunks_step _ _ _ _ _ (decode_chunk_ref_shape _ _ _ _ hdvtake)]
      by_cases hcase2 : k < L + 88
      · -- the cut lies in this chunk's fixed tail: the next offset overruns
        have hcs : cs ≠ [] := by
          intro hnil
          rw [hflat, hnil] at hp2
          simp [henclen] at hp2
          omega
        match cs, hcs with
        | c' :: cs', _ =>
          have hoob : decode_varint ((pre ++ ((c :: c' :: cs').map
              encode_chunk_ref).flatten).take (pre.length + k))
              (pre.length + (L + 88)) = .error .truncated := by
            apply decode_varint_oob
            rw [List.length_take]
            omega
          simp only [List.length_cons]
          rw [decodeChunks_err _ _ _ _ (decode_chunk_ref_err _ _ _ hoob)]
          rfl
      · -- the whole chunk is intact: recurse on the remaining list
        have hbuf : pre ++ ((c :: cs).map encode_chunk_ref).flatten =
            (pre ++ encode_chunk_ref c) ++ (cs.map encode_chunk_ref).flatten := by
          rw [hflat]; simp
        have hoff : pre.length + (L + 88) = (pre ++ encode_chunk_ref c).length := by
          simp [henclen]
        have hp : pre.length + k = (pre ++ encode_chunk_ref c).length +
            (k - (L + 88)) := by
          simp only [List.length_append, henclen]
          omega
        have hlen2 : (((c :: cs).map encode_chunk_ref).flatten).length =
            (encode_chunk_ref c).length + ((cs.map encode_chunk_ref).flatten).length := by
          rw [hflat]
          simp
        rw [hbuf, hoff, hp, ih (pre ++ encode_chunk_ref c) _
          (fun x hx => hwf x (by simp [hx]))
          (by omega)
          (by simp only [List.length_append]
              omega)]
        rfl

/-- A size-varint failure aborts `decode_file_node_payload` (the earlier
field reads are infallible `let`s). -/
theorem fn_err1 (buf : Bytes) (e : Err) (h : decode_varint buf 44 = .error e) :
    decode_file_node_payload buf = .error e := by
  unfold decode_file_node_payload
  rw [h]
  rfl

/-- A chunk-count-varint failure aborts `decode_file_node_payload`. -/
theorem fn_err2 (buf : Bytes) (v sl : Nat) (e : Err)
    (h1 : decode_varint buf 44 = .ok (v, sl))
    (h2 : decode_varint buf (44 + sl) = .error e) :
    decode_file_node_payload buf = .error e := by
  unfold decode_file_node_payload
  simp only [h1, ok_bind, h2]
  rfl

/-- A chunk-loop failure aborts `decode_file_node_payload`. -/
theorem fn_err3 (buf : Bytes) (v sl w cl : Nat) (e : Err)
    (h1 : decode_varint buf 44 = .ok (v, sl))
    (h2 : decode_varint buf (44 + sl) = .ok (w, cl))
    (h3 : decodeChunks buf (44 + sl + cl) w = .error e) :
    decode_file_node_payload buf = .error e := by
  unfold decode_file_node_payload
  simp only [h1, h2, ok_bind, h3]
  rfl

/-- Any cut before the 88-byte fixed tail of the final chunk (or anywhere,
when there are no chunks) truncates a varint, runs a read off the end, or
starves the chunk loop — always surfacing `Truncated`. -/
theorem decode_file_node_payload_cut (node : FileNode) (hwf : FileNodeWF node)
    (p : Nat)
    (hp : p + (if node.chunks = [] then 0 else 88) < (file_node_payload node).length) :
    decode_file_node_payload ((file_node_payload node).take p) = .error .truncated := by
  obtain ⟨hch, hsize, hcount, _, _, hcs⟩ := hwf
  set Ls := (encode_varint node.size).length with hLs
  set Lc := (encode_varint node.chunks.length).length with hLc
  have hLsle : Ls ≤ 8 := encode_varint_length_le 7 node.size hsize
  have hLcle : Lc ≤ 8 := encode_varint_length_le 7 node.chunks.length hcount
  have hLs1 : 1 ≤ Ls := List.length_pos.mpr (encode_varint_ne_nil _)
  have hLc1 : 1 ≤ Lc := List.length_pos.mpr (encode_varint_ne_nil _)
  have hpl : file_node_payload node =
      ((node.content_hash ++ encode_timestamp node.created) ++
        encode_timestamp node.modified) ++
        (encode_varint node.size ++ (encode_varint node.chunks.length ++
          (node.chunks.map encode_chunk_ref).flatten)) := by
    unfold file_node_payload
    rw [fit_eq 32 node.content_hash hch]
    simp
  set H44 : Bytes := (node.content_hash ++ encode_timestamp node.created) ++
    encode_timestamp node.modified with hH44
  have h44 : H44.length = 44 := by
    simp [hH44, hch, encode_timestamp_length]
  set flat : Bytes := (node.chunks.map encode_chunk_ref).flatten with hflat
  have hPlen : (file_node_payload node).length = 44 + Ls + Lc + flat.length := by
    rw [hpl]
    simp only [List.length_append, h44]
    omega
  -- full-buffer varint reads, for the later regions
  have hsz : decode_varint (file_node_payload node) 44 =
      .ok (node.size, Ls) := by
    rw [hpl, ← h44]
    exact decode_varint_encode H44 _ node.size hsize
  have hcnt : decode_varint (file_node_payload node) (44 + Ls) =
      .ok (node.chunks.length, Lc) := by
    rw [hpl, show H44 ++ (encode_varint node.size ++ (encode_varint node.chunks.length ++
        flat)) = (H44 ++ encode_varint node.size) ++ (encode_varint node.chunks.length ++
        flat) by simp,
      show 44 + Ls = (H44 ++ encode_varint node.size).length by
        simp [h44, hLs],
      decode_varint_encode _ _ _ hcount]
  by_cases hp1 : p < 44
  · -- cut before the size varint: read at offset 44 is out of bounds
    apply fn_err1
    apply decode_varint_oob
    rw [List.length_take]
    omega
  · by_cases hp2 : p < 44 + Ls
    · -- cut inside the size varint
      obtain ⟨k, rfl⟩ : ∃ k, p = 44 + k := ⟨p - 44, by omega⟩
      have htk : (file_node_payload node).take (44 + k) =
          H44 ++ (encode_varint node.size).take k := by
        rw [hpl, show (44 : Nat) + k = H44.length + k by rw [h44], List.take_append]
        congr 1
        rw [List.take_append_eq_append_take, Nat.sub_eq_zero_of_le (by omega),
          List.take_zero, List.append_nil]
      rw [htk]
      exact fn_err1 _ _ (by
        rw [show (44 : Nat) = H44.length from h44.symm]
        exact decode_varint_cut H44 node.size k hsize (by omega))
    · by_cases hp3 : p < 44 + Ls + Lc
      · -- cut inside the chunk-count varint
        obtain ⟨k, rfl⟩ : ∃ k, p = 44 + Ls + k := ⟨p - 44 - Ls, by omega⟩
        have hsztake : decode_varint ((file_node_payload node).take (44 + Ls + k)) 44 =
            .ok (node.size, Ls) :=
          decode_varint_take _ _ _ _ _ hsz (by omega)
        have htk : (file_node_payload node).take (44 + Ls + k) =
            (H44 ++ encode_varint node.size) ++
              (encode_varint node.chunks.length).take k := by
          rw [hpl, show H44 ++ (encode_varint node.size ++
            (encode_varint node.chunks.length ++ flat)) =
            (H44 ++ encode_varint node.size) ++ (encode_varint node.chunks.length ++ flat)
            by simp,
            show 44 + Ls + k = (H44 ++ encode_varint node.size).length + k by
              simp only [List.length_append, h44],
            List.take_append]
          congr 1
          rw [List.take_append_eq_append_take, Nat.sub_eq_zero_of_le (by omega),
            List.take_zero, List.append_nil]
        refine fn_err2 _ node.size Ls _ hsztake ?_
        rw [htk]
        rw [show 44 + Ls = (H44 ++ encode_varint node.size).length by simp [h44, hLs]]
        exact decode_varint_cut _ node.chunks.length k hcount (by omega)
      · -- cut inside the chunk refs
        have hne : node.chunks ≠ [] := by
          intro hnil
          rw [if_pos hnil] at hp
          have hfl : flat.length = 0 := by rw [hflat, hnil]; rfl
          rw [hPlen] at hp
          omega
        rw [if_neg hne] at hp
        have hsztake : decode_varint ((file_node_payload node).take p) 44 =
            .ok (node.size, Ls) :=
          decode_varint_take _ _ _ _ _ hsz (by omega)
        have hcnttake : decode_varint ((file_node_payload node).take p) (44 + Ls) =
            .ok (node.chunks.length, Lc) :=
          decode_varint_take _ _ _ _ _ hcnt (by omega)
        refine fn_err3 _ node.size Ls node.chunks.length Lc _ hsztake hcnttake ?_
        have hpre : file_node_payload node =
            ((H44 ++ encode_varint node.size) ++ encode_varint node.chunks.length) ++
              flat := by
          rw [hpl]; simp
        have hprelen : ((H44 ++ encode_varint node.size) ++
            encode_varint node.chunks.length).length = 44 + Ls + Lc := by
          simp only [List.length_append, h44]
        rw [hpre, show 44 + Ls + Lc = ((H44 ++ encode_varint node.size) ++
          encode_varint node.chunks.length).length from hprelen.symm]
        exact decodeChunksCut node.chunks _ p hcs (by omega)
          (by rw [hprelen, ← hPlen]; omega)

/-- C8 amended.  Decoding an encoded file-node payload returns the chunk refs
in payload order (full round trip, timestamps mod `2^48`); and decoding any
proper prefix fails with `Truncated` **provided** the cut lies before the
88-byte fixed-width tail (hash ‖ blob_address ‖ nonce) of the final chunk —
a cut inside that tail is not detected (see the counterexample theorem). -/
theorem file_node_order_and_truncation (node : FileNode) (t1 t2 : Nat)
    (hwf : FileNodeWF node) (hc : node.created = some t1)
    (hm : node.modified = some t2) :
    decode_file_node_payload (file_node_payload node) =
      .ok { node with created := some (t1 % 2 ^ 48), modified := some (t2 % 2 ^ 48) } ∧
    ∀ p, p + (if node.chunks = [] then 0 else 88) < (file_node_payload node).length →
      decode_file_node_payload ((file_node_payload node).take p) = .error .truncated :=
  ⟨decode_file_node_payload_encode node t1 t2 hwf hc hm,
    fun p hp => decode_file_node_payload_cut node hwf p hp⟩

set_option maxRecDepth 100000 in
/-- C8 amended witness: the round trip and a truncation at byte 46 (cutting
the chunk-count varint region) on a concrete single-chunk node whose payload
is 135 bytes. -/
theorem file_node_order_and_truncation_witness :
    decode_file_node_payload (file_node_payload sampleFileNode) =
      .ok { sampleFileNode with created := some (1000 % 2 ^ 48),
                                modified := some (2000 % 2 ^ 48) } ∧
    decode_file_node_payload ((file_node_payload sampleFileNode).take 46) =
      .error .truncated := by
  have h := file_node_order_and_truncation sampleFileNode 1000 2000
    (by constructor
        · decide
        · refine ⟨by decide, by decide, by decide, by decide, ?_⟩
          intro c hc
          simp only [sampleFileNode, List.mem_singleton] at hc
          subst hc
          exact ⟨by decide, by decide, by decide, by decide⟩)
    rfl rfl
  exact ⟨h.1, h.2 46 (by decide)⟩

set_option maxRecDepth 100000 in
/-- C8 counterexample: dropping the final byte of a valid 135-byte file-node
payload (the cut lands inside the last chunk's 24-byte nonce) decodes
**successfully** to a `FileNode` whose final nonce has only 23 bytes —
not a `Truncated` failure. -/
theorem file_node_truncated_tail_decodes :
    (file_node_payload sampleFileNode).length = 135 ∧
    decode_file_node_payload ((file_node_payload sampleFileNode).take 134) =
      .ok ⟨List.replicate 32 1, 5, some 1000, some 2000,
        [⟨0, List.replicate 32 2, List.replicate 32 3, List.replicate 23 4⟩]⟩ := by
  constructor
  · decide
  · decide

/-! ## Node dispatcher round trip (C10) -/

theorem decode_dir_node_payload_encode (d : DirNode) (t1 t2 : Nat)
    (hwf : DirNodeWF d) (hc : d.created = some t1) (hm : d.modified = some t2) :
    decode_dir_node_payload (dir_node_payload d) =
      { d with created := some (t1 % 2 ^ 48), modified := some (t2 % 2 ^ 48) } := by
  obtain ⟨hroot, hg, _, _⟩ := hwf
  cases hgid : d.group_id with
  | none =>
    have hpl : dir_node_payload d = (d.smt_root ++ [0]) ++
        (encode_timestamp (some t1) ++ encode_timestamp (some t2)) := by
      unfold dir_node_payload
      rw [fit_eq 32 d.smt_root hroot, hgid, hc, hm]
      simp
    rw [hpl, dir_decode_absent d.smt_root 0 t1 t2 hroot (by omega)]
  | some g =>
    have hpl : dir_node_payload d = (d.smt_root ++ [1]) ++
        (g ++ (encode_timestamp (some t1) ++ encode_timestamp (some t2))) := by
      unfold dir_node_payload
      rw [hgid, hc, hm]
      simp [fit_eq 32 d.smt_root hroot, fit_eq 32 g (hg g hgid)]
    rw [hpl, dir_decode_present d.smt_root g t1 t2 hroot (hg g hgid)]

/-- C10.  `encode_node` always succeeds, and decoding its output yields the
node with both timestamps reduced modulo `2^48` (high bits beyond 48 are
silently dropped by the 6-byte big-endian field); when the timestamps are
below `2^48` the node round-trips exactly. -/
theorem node_timestamp_mod (n : Node) (hwf : NodeWF n) :
    decode_node (encode_node n) = .ok (tsMod48 n) ∧
      (tsLt48 n → decode_node (encode_node n) = .ok n) := by
  cases n with
  | file f =>
    obtain ⟨hch, hsz, hcnt, hcne, hmne, hcs⟩ := hwf
    obtain ⟨t1, hc⟩ := Option.ne_none_iff_exists'.mp hcne
    obtain ⟨t2, hm⟩ := Option.ne_none_iff_exists'.mp hmne
    have hdec : decode_node (encode_node (.file f)) =
        .ok (.file { f with created := some (t1 % 2 ^ 48),
                            modified := some (t2 % 2 ^ 48) }) := by
      show decode_node (write_envelope 0x01 (file_node_payload f)) = _
      unfold decode_node
      rw [has_magic_write_envelope]
      simp only [if_true]
      rw [read_write_envelope 0x01 _ (by norm_num), ok_bind]
      show (decode_file_node_payload (file_node_payload f)).map Node.file = _
      rw [decode_file_node_payload_encode f t1 t2 ⟨hch, hsz, hcnt, hcne, hmne, hcs⟩ hc hm]
      rfl
    constructor
    · rw [hdec]
      simp only [tsMod48]
      rw [hc, hm]
      rfl
    · intro hlt
      obtain ⟨hlt1, hlt2⟩ := hlt
      rw [hdec, Nat.mod_eq_of_lt (hlt1 t1 hc), Nat.mod_eq_of_lt (hlt2 t2 hm),
        ← hc, ← hm]
  | dir d =>
    obtain ⟨hroot, hg, hcne, hmne⟩ := hwf
    obtain ⟨t1, hc⟩ := Option.ne_none_iff_exists'.mp hcne
    obtain ⟨t2, hm⟩ := Option.ne_none_iff_exists'.mp hmne
    have hdec : decode_node (encode_node (.dir d)) =
        .ok (.dir { d with created := some (t1 % 2 ^ 48),
                           modified := some (t2 % 2 ^ 48) }) := by
      show decode_node (write_envelope 0x02 (dir_node_payload d)) = _
      unfold decode_node
      rw [has_magic_write_envelope]
      simp only [if_true]
      rw [read_write_envelope 0x02 _ (by norm_num), ok_bind]
      show Except.ok (Node.dir (decode_dir_node_payload (dir_node_payload d))) = _
      rw [decode_dir_node_payload_encode d t1 t2 ⟨hroot, hg, hcne, hmne⟩ hc hm]
    constructor
    · rw [hdec]
      simp only [tsMod48]
      rw [hc, hm]
      rfl
    · intro hlt
      obtain ⟨hlt1, hlt2⟩ := hlt
      rw [hdec, Nat.mod_eq_of_lt (hlt1 t1 hc), Nat.mod_eq_of_lt (hlt2 t2 hm),
        ← hc, ← hm]

set_option maxRecDepth 100000 in
/-- C10 witness: a node with timestamp `2^48 + 5` decodes back with timestamp
`5`, and the concrete `sampleFileNode` (small timestamps) round-trips
exactly. -/
theorem node_timestamp_mod_witness :
    decode_node (encode_node (.file { sampleFileNode with
        created := some (2 ^ 48 + 5) })) =
      .ok (.file { sampleFileNode with
        created := some 5, modified := some (2000 % 2 ^ 48) }) ∧
    decode_node (encode_node (.file sampleFileNode)) = .ok (.file sampleFileNode) := by
  constructor
  · have h := (node_timestamp_mod (.file { sampleFileNode with
        created := some (2 ^ 48 + 5) })
      (by refine ⟨by decide, by decide, by decide, by decide, by decide, ?_⟩
          intro c hc
          simp only [sampleFileNode, List.mem_singleton] at hc
          subst hc
          exact ⟨by decide, by decide, by decide, by decide⟩)).1
    rw [h]
    simp only [tsMod48, sampleFileNode, Option.map_some]
    norm_num
  · have h := (node_timestamp_mod (.file sampleFileNode)
      (by refine ⟨by decide, by decide, by decide, by decide, by decide, ?_⟩
          intro c hc
          simp only [sampleFileNode, List.mem_singleton] at hc
          subst hc
          exact ⟨by decide, by decide, by decide, by decide⟩)).2
    apply h
    show (∀ t, sampleFileNode.created = some t → t < 2 ^ 48) ∧
      (∀ t, sampleFileNode.modified = some t → t < 2 ^ 48)
    constructor
    · intro t ht
      simp [sampleFileNode] at ht
      omega
    · intro t ht
      simp [sampleFileNode] at ht
      omega

/-! ## Pipeline negotiation (C4) -/

theorem negotiate_eq (plaintext : Bytes) (opts : PipelineOptions) (ct : Nat) :
    negotiate plaintext opts ct =
      dictTrial opts.dictionary ct plaintext >>= fun b0 =>
        if (match opts.fallback_compress with
            | some f => fbTrial f opts.dictionary.isSome plaintext b0
            | none => b0).1.length ≥ plaintext.length
        then .ok (plaintext, 0)
        else .ok (match opts.fallback_compress with
            | some f => fbTrial f opts.dictionary.isSome plaintext b0
            | none => b0) := rfl

/-- C4.  Whenever the negotiation returns (it can only fail to by hanging in
a degenerate dictionary), `compress_blob` emits exactly the negotiated
`(data, method)` in its payload; a non-`0x00` method byte implies the inner
`compressed_len` is strictly smaller than the plaintext; and if neither the
dictionary trial nor the fallback trial ever produces an output strictly
smaller than the plaintext, the method byte is `0x00` and the stored data is
the plaintext verbatim. -/
theorem compress_blob_never_expands (plaintext : Bytes) (opts : PipelineOptions)
    (best : Bytes × Nat)
    (hneg : negotiate plaintext opts (detect_content_type plaintext) = .ok best) :
    compress_blob plaintext opts =
      .ok (write_envelope 0x10 (best.2 :: detect_content_type plaintext ::
        (encode_varint plaintext.length ++ encode_varint best.1.length ++ best.1))) ∧
    (best.2 ≠ 0 → best.1.length < plaintext.length) ∧
    ((∀ d, opts.dictionary = some d → ∀ out, d.compress plaintext = .ok out →
        plaintext.length ≤ out.length) →
      (∀ f, opts.fallback_compress = some f → ∀ out, f plaintext = .ok out →
        plaintext.length ≤ out.length) →
      best = (plaintext, 0)) := by
  obtain ⟨bd, bm⟩ := best
  refine ⟨?_, ?_, ?_⟩
  · show negotiate plaintext opts (detect_content_type plaintext) >>=
        (fun p => Except.ok (write_envelope 0x10 (p.2 :: detect_content_type plaintext ::
          (encode_varint plaintext.length ++ encode_varint p.1.length ++ p.1)))) = _
    rw [hneg, ok_bind]
  · intro hbm
    rw [negotiate_eq] at hneg
    cases hd : dictTrial opts.dictionary (detect_content_type plaintext) plaintext with
    | error e =>
      rw [hd, err_bind] at hneg
      exact absurd hneg (by simp)
    | ok b0 =>
      rw [hd, ok_bind] at hneg
      by_cases hrev : (match opts.fallback_compress with
          | some f => fbTrial f opts.dictionary.isSome plaintext b0
          | none => b0).1.length ≥ plaintext.length
      · rw [if_pos hrev] at hneg
        simp only [Except.ok.injEq, Prod.mk.injEq] at hneg
        omega
      · rw [if_neg hrev] at hneg
        simp only [Except.ok.injEq] at hneg
        rw [hneg] at hrev
        omega
  · intro Hd Hf
    rw [negotiate_eq] at hneg
    cases hd : dictTrial opts.dictionary (detect_content_type plaintext) plaintext with
    | error e =>
      rw [hd, err_bind] at hneg
      exact absurd hneg (by simp)
    | ok b0 =>
      rw [hd, ok_bind] at hneg
      have hb0 : b0 = (plaintext, 0) := by
        cases hdict : opts.dictionary with
        | none =>
          rw [hdict] at hd
          exact (Except.ok.inj hd).symm
        | some dct =>
          rw [hdict] at hd
          have hd2 : (if detect_content_type plaintext = CT_TEXT ∨
                detect_content_type plaintext = CT_JSON then
              match dct.compress plaintext with
              | .ok out =>
                if out.length < plaintext.length then .ok (out, 2) else .ok (plaintext, 0)
              | .error .diverge => .error .diverge
              | .error _ => .ok (plaintext, 0)
            else (.ok (plaintext, 0) : Except Err (Bytes × Nat))) = .ok b0 := hd
          by_cases hctc : detect_content_type plaintext = CT_TEXT ∨
              detect_content_type plaintext = CT_JSON
          · rw [if_pos hctc] at hd2
            cases hcomp : dct.compress plaintext with
            | ok out =>
              rw [hcomp] at hd2
              have hge := Hd dct hdict out hcomp
              have hd3 : (if out.length < plaintext.length then
                  (.ok (out, 2) : Except Err (Bytes × Nat))
                else .ok (plaintext, 0)) = .ok b0 := hd2
              rw [if_neg (show ¬out.length < plaintext.length from by omega)] at hd3
              exact (Except.ok.inj hd3).symm
            | error e =>
              rw [hcomp] at hd2
              cases e <;>
                first
                | exact (Except.ok.inj hd2).symm
                | exact absurd hd2 (by simp)
          · rw [if_neg hctc] at hd2
            exact (Except.ok.inj hd2).symm
      subst hb0
      have hb1 : (match opts.fallback_compress with
          | some f => fbTrial f opts.dictionary.isSome plaintext (plaintext, 0)
          | none => (plaintext, 0)) = (plaintext, 0) := by
        cases hfb : opts.fallback_compress with
        | none => rfl
        | some f =>
          show fbTrial f opts.dictionary.isSome plaintext (plaintext, 0) = _
          unfold fbTrial
          rw [if_neg (show ¬((plaintext, 0).2 = 2 ∧ opts.dictionary.isSome = true) from
            by simp)]
          cases hf2 : f plaintext with
          | error e => rfl
          | ok o2 =>
            have hge := Hf f hfb o2 hf2
            show (if o2.length < plaintext.length then ((o2, 1) : Bytes × Nat)
              else (plaintext, 0)) = (plaintext, 0)
            rw [if_neg (show ¬o2.length < plaintext.length from by omega)]
      rw [hb1, if_pos (show (plaintext, 0).1.length ≥ plaintext.length from le_refl _)] at hneg
      exact (Except.ok.inj hneg).symm

/-- C4 witness: with no dictionary and no fallback, a 3-byte plaintext is
stored verbatim with method byte `0x00`. -/
theorem compress_blob_never_expands_witness :
    compress_blob [1, 2, 3] ⟨none, none, none⟩ =
      .ok (write_envelope 0x10 (((([1, 2, 3], 0) : Bytes × Nat)).2 ::
        detect_content_type [1, 2, 3] ::
        (encode_varint ([1, 2, 3] : Bytes).length ++
          encode_varint (([1, 2, 3], 0) : Bytes × Nat).1.length ++
          (([1, 2, 3], 0) : Bytes × Nat).1))) :=
  (compress_blob_never_expands [1, 2, 3] ⟨none, none, none⟩ ([1, 2, 3], 0) (by decide)).1

/-! ## Dictionary training over short zero-free samples (C1, C2, C3) -/

theorem train_eq (samples : List Bytes) :
    Dictionary.train samples =
      if samples.length = 0 then
        .ok ⟨[], SymbolTree.from_frequencies (List.replicate 256 0)⟩
      else
        (samples.mapM (fun s => apply_substitution s (trainStrings samples))) >>=
          fun parts =>
            .ok ⟨trainStrings samples, SymbolTree.from_frequencies (countBytes parts)⟩ :=
  rfl

/-- Samples shorter than every n-gram window leave the n-gram table empty. -/
theorem gramFold_id (samples : List Bytes) : ∀ (m : List (Bytes × Nat)),
    (∀ s ∈ samples, s.length < 4) →
    samples.foldl
      (fun m sample => [4, 8, 16, 32].foldl
        (fun m gs => (gramsOf sample gs).foldl bumpGram m) m) m = m := by
  induction samples with
  | nil => intro m _; rfl
  | cons s ss ih =>
    intro m h
    have hs : s.length < 4 := h s (by simp)
    have hstep : [4, 8, 16, 32].foldl
        (fun m gs => (gramsOf s gs).foldl bumpGram m) m = m := by
      simp only [List.foldl_cons, List.foldl_nil, gramsOf]
      rw [if_pos hs, if_pos (show s.length < 8 by omega),
        if_pos (show s.length < 16 by omega), if_pos (show s.length < 32 by omega)]
      rfl
    rw [List.foldl_cons]
    show List.foldl _
      ([4, 8, 16, 32].foldl (fun m gs => (gramsOf s gs).foldl bumpGram m) m) ss = m
    rw [hstep]
    exact ih m (fun t ht => h t (by simp [ht]))

theorem trainGrams_nil (samples : List Bytes) (h : ∀ s ∈ samples, s.length < 4) :
    trainGrams samples = [] :=
  gramFold_id samples [] h

theorem trainStrings_nil (samples : List Bytes) (h : ∀ s ∈ samples, s.length < 4) :
    trainStrings samples = [] := by
  rw [trainStrings, trainGrams_nil samples h]
  rfl

/-- With no substitution strings, the substitution pass copies any zero-free
input verbatim. -/
theorem substAux_nil_strings : ∀ (s : Bytes) (fuel : Nat), s.length < fuel →
    (∀ x ∈ s, x ≠ 0) → substAux [] fuel s = .ok s := by
  intro s
  induction s with
  | nil => intro fuel _ _; cases fuel <;> rfl
  | cons b rest ih =>
    intro fuel hlen hnz
    cases fuel with
    | zero => simp at hlen
    | succ k =>
      simp only [substAux, firstMatch]
      rw [if_neg (hnz b (by simp))]
      rw [ih k (by simp only [List.length_cons] at hlen; omega)
        (fun x hx => hnz x (by simp [hx])), ok_bind]

theorem mapM_subst_nil : ∀ (samples : List Bytes),
    (∀ s ∈ samples, ∀ x ∈ s, x ≠ 0) →
    samples.mapM (fun s => apply_substitution s []) = .ok samples := by
  intro samples
  induction samples with
  | nil => intro _; rfl
  | cons s ss ih =>
    intro h
    rw [List.mapM_cons]
    rw [show apply_substitution s [] = .ok s from
      substAux_nil_strings s (s.length + 1) (by omega) (h s (by simp)), ok_bind]
    rw [ih (fun t ht x hx => h t (by simp [ht]) x hx), ok_bind]
    rfl

/-- `Dictionary.train` over nonempty, short (< 4 bytes), zero-free samples
retains no strings and builds the tree over the raw byte frequencies. -/
theorem train_small (samples : List Bytes) (hne : ¬samples.length = 0)
    (hsmall : ∀ s ∈ samples, s.length < 4 ∧ ∀ x ∈ s, x ≠ 0) :
    Dictionary.train samples =
      .ok ⟨[], SymbolTree.from_frequencies (countBytes samples)⟩ := by
  have hstr : trainStrings samples = [] :=
    trainStrings_nil samples (fun s hs => (hsmall s hs).1)
  rw [train_eq, if_neg hne]
  simp only [hstr]
  rw [mapM_subst_nil samples (fun s hs => (hsmall s hs).2), ok_bind]

theorem getD_set_self_nat : ∀ (f : List Nat) (b v : Nat), b < f.length →
    (f.set b v).getD b 0 = v := by
  intro f
  induction f with
  | nil => intro b v h; simp at h
  | cons x t ih =>
    intro b v h
    cases b with
    | zero => rfl
    | succ b' =>
      show (t.set b' v).getD b' 0 = v
      exact ih b' v (by simp only [List.length_cons] at h; omega)

theorem set_getD_self_nat : ∀ (f : List Nat) (b : Nat), b < f.length →
    f.set b (f.getD b 0) = f := by
  intro f
  induction f with
  | nil => intro b h; simp at h
  | cons x t ih =>
    intro b h
    cases b with
    | zero => rfl
    | succ b' =>
      show x :: t.set b' (t.getD b' 0) = x :: t
      rw [ih b' (by simp only [List.length_cons] at h; omega)]

/-- Counting a run of copies of one byte adds its length to that byte's
cell. -/
theorem countOne (b : Nat) : ∀ (s : Bytes) (f : List Nat), (∀ x ∈ s, x = b) →
    b < f.length →
    s.foldl (fun f x => f.set x (f.getD x 0 + 1)) f =
      f.set b (f.getD b 0 + s.length) := by
  intro s
  induction s with
  | nil =>
    intro f _ hb
    show f = f.set b (f.getD b 0 + 0)
    rw [Nat.add_zero, set_getD_self_nat f b hb]
  | cons x s ih =>
    intro f hall hb
    have hx : x = b := hall x (by simp)
    simp only [List.foldl_cons, List.length_cons]
    rw [hx]
    rw [ih (f.set b (f.getD b 0 + 1)) (fun y hy => hall y (List.mem_cons_of_mem _ hy))
      (by simp only [List.length_set]; exact hb)]
    rw [getD_set_self_nat f b (f.getD b 0 + 1) hb, List.set_set]
    congr 1
    omega

theorem countRep3 (b : Nat) : ∀ (k : Nat) (f : List Nat), b < f.length →
    (List.replicate k ([b, b, b] : Bytes)).foldl
      (fun f part => part.foldl (fun f x => f.set x (f.getD x 0 + 1)) f) f =
      f.set b (f.getD b 0 + 3 * k) := by
  intro k
  induction k with
  | zero =>
    intro f hb
    show f = f.set b (f.getD b 0 + 3 * 0)
    rw [Nat.mul_zero, Nat.add_zero, set_getD_self_nat f b hb]
  | succ k ih =>
    intro f hb
    have hall : ∀ x ∈ ([b, b, b] : Bytes), x = b := by
      intro x hx
      simp at hx
      simp [hx]
    have h1 : ([b, b, b] : Bytes).foldl (fun f x => f.set x (f.getD x 0 + 1)) f
        = f.set b (f.getD b 0 + 3) := by
      have := countOne b [b, b, b] f hall hb
      simpa using this
    rw [List.replicate_succ, List.foldl_cons]
    show (List.replicate k ([b, b, b] : Bytes)).foldl _
        (([b, b, b] : Bytes).foldl (fun f x => f.set x (f.getD x 0 + 1)) f) =
      f.set b (f.getD b 0 + 3 * (k + 1))
    rw [h1, ih (f.set b (f.getD b 0 + 3)) (by simp only [List.length_set]; exact hb)]
    rw [getD_set_self_nat f b _ hb, List.set_set]
    congr 1
    omega

theorem countGroup (b n : Nat) (f : List Nat) (hb : b < f.length) :
    (symGroup b n).foldl
      (fun f part => part.foldl (fun f x => f.set x (f.getD x 0 + 1)) f) f =
      f.set b (f.getD b 0 + n) := by
  unfold symGroup
  by_cases h3 : n % 3 = 0
  · rw [if_pos h3, List.append_nil, countRep3 b (n / 3) f hb]
    congr 1
    omega
  · rw [if_neg h3, List.foldl_append, countRep3 b (n / 3) f hb]
    simp only [List.foldl_cons, List.foldl_nil]
    rw [countOne b (List.replicate (n % 3) b) _
      (fun x hx => List.eq_of_mem_replicate hx)
      (by simp only [List.length_set]; exact hb)]
    rw [getD_set_self_nat f b _ hb, List.set_set, List.length_replicate]
    congr 1
    omega

theorem countGroups : ∀ (gs : List (Nat × Nat)) (f : List Nat),
    (∀ p ∈ gs, p.1 < f.length) →
    ((gs.map fun p => symGroup p.1 p.2).flatten).foldl
      (fun f part => part.foldl (fun f x => f.set x (f.getD x 0 + 1)) f) f =
      gs.foldl (fun f p => f.set p.1 (f.getD p.1 0 + p.2)) f := by
  intro gs
  induction gs with
  | nil => intro f _; rfl
  | cons p gs ih =>
    intro f h
    simp only [List.map_cons, List.flatten_cons, List.foldl_append, List.foldl_cons]
    rw [countGroup p.1 p.2 f (h p (by simp))]
    exact ih (f.set p.1 (f.getD p.1 0 + p.2))
      (fun q hq => by simp only [List.length_set]; exact h q (by simp [hq]))

set_option maxRecDepth 40000 in
theorem countBytes_fib3 : countBytes fibSamples3 = fibFreq := by
  unfold countBytes fibSamples3
  rw [countGroups groupSpec (List.replicate 256 0) (by decide)]
  decide

theorem symGroup_mem (b n : Nat) (s : Bytes) (h : s ∈ symGroup b n) :
    s = [b, b, b] ∨ s = List.replicate (n % 3) b := by
  unfold symGroup at h
  rcases List.mem_append.mp h with h1 | h2
  · exact Or.inl (List.eq_of_mem_replicate h1)
  · by_cases h3 : n % 3 = 0
    · rw [if_pos h3] at h2
      simp at h2
    · rw [if_neg h3] at h2
      simp at h2
      exact Or.inr h2

theorem fib3_small : ∀ s ∈ fibSamples3, s.length < 4 ∧ ∀ x ∈ s, x ≠ 0 := by
  intro s hs
  simp only [fibSamples3, List.mem_flatten, List.mem_map] at hs
  obtain ⟨l, ⟨p, hp, rfl⟩, hsl⟩ := hs
  have hb : 0x61 ≤ p.1 := by
    have hall : ∀ q ∈ groupSpec, 0x61 ≤ q.1 := by decide
    exact hall p hp
  rcases symGroup_mem p.1 p.2 s hsl with rfl | rfl
  · refine ⟨by simp, ?_⟩
    intro x hx
    simp at hx
    rcases hx with rfl | rfl | rfl; omega
  · refine ⟨?_, ?_⟩
    · simp only [List.length_replicate]
      omega
    · intro x hx
      have := List.eq_of_mem_replicate hx
      omega

set_option maxRecDepth 1000000 in
/-- C1.  On the Fibonacci frequency table `fibFreq`, the tree returned by
`SymbolTree.from_frequencies` has every length at most 15 (the `walk`
pre-clamps depths to 15, so `clamp_lengths` finds nothing over 15 and
returns early), yet the Kraft sum exceeds one: scaled by `2^15` it is
`2^15 + 1`.  This refutes the claimed invariant `Σ 2^-len ≤ 1`. -/
theorem from_frequencies_kraft_violated :
    (SymbolTree.from_frequencies fibFreq).lengths.all (· ≤ 15) = true ∧
    kraftScaled (SymbolTree.from_frequencies fibFreq).lengths = 2 ^ 15 + 1 := by
  constructor
  · rfl
  · rfl

set_option maxRecDepth 1000000 in
/-- C2.  The dictionary trained on `fibSamples3` mis-round-trips the sample
`[0x63, 0x63]` of its own training list: both symbols get the overflowed
canonical code (fifteen zero bits), which the decoder reads back as the
code of `0x71`, so `decompress (compress s)` returns `[0x71, 0x71] ≠ s`. -/
theorem dictionary_roundtrip_bug :
    (Dictionary.train fibSamples3).bind (fun d =>
      (d.compress [0x63, 0x63]).bind fun c => d.decompress c 1) =
      .ok [0x71, 0x71] ∧
    ([0x63, 0x63] : Bytes) ∈ fibSamples3 := by
  constructor
  · rw [train_small fibSamples3 (by decide) fib3_small, countBytes_fib3]
    rfl
  · unfold fibSamples3
    exact List.mem_flatten.mpr ⟨symGroup 0x63 2,
      List.mem_map.mpr ⟨(0x63, 2), by decide, rfl⟩, by decide⟩

set_option maxRecDepth 1000000 in
/-- C3.  End-to-end pipeline failure: with the dictionary trained on
`fibSamples3` (and no fallbacks), the 64-byte text `ptC3` compresses via the
dictionary (method 2) and decompresses to sixty-four `0x71` bytes instead of
the original. -/
theorem pipeline_roundtrip_bug :
    (Dictionary.train fibSamples3).bind (fun d =>
      (compress_blob ptC3 ⟨some d, none, none⟩).bind fun c =>
        decompress_blob c ⟨some d, none, none⟩) =
      .ok (List.replicate 64 0x71) ∧
    (List.replicate 64 0x71 : Bytes) ≠ ptC3 := by
  constructor
  · rw [train_small fibSamples3 (by decide) fib3_small, countBytes_fib3]
    rfl
  · decide

end ZkSym
